import Mathlib

/-!
Verification of the helper-function contracts of `p1204_3/utils.py`.

The Python module is shallowly embedded: pure fragments become Lean
functions; effectful fragments (process spawning, printing, logging,
process exit, the file system) become explicit effect records or
environment parameters.  Values flowing through `json` are modelled by the
mutual inductive `PVal` below; Python's `json.dump` (with `indent=4,
sort_keys=True`) and `json.load` are modelled by an executable serializer
and an executable recursive-descent parser over `List Char`.  Machine
floats are outside the model: the frame-rate arithmetic (`round(eval(s))`
on a rational string `num/den`) is modelled exactly over `ℚ` with Python's
round-half-to-even, and JSON numbers with a fraction or exponent are
modelled as parse failures, as no claim exercises them.
-/

set_option maxHeartbeats 1000000

/-! ## Characters and small string utilities -/

/-- The opening curly-brace character. -/
def lbrace : Char := Char.ofNat 123

/-- The closing curly-brace character. -/
def rbrace : Char := Char.ofNat 125

/-- The single-quote (apostrophe) character. -/
def squote : Char := Char.ofNat 39

/-- Decimal digit test on characters. -/
def isDigitCh (c : Char) : Bool := decide ('0' ≤ c) && decide (c ≤ '9')

/-- Value of a decimal digit character. -/
def digitVal (c : Char) : Nat := c.toNat - 48

/-- Character for a decimal digit below 10. -/
def digitChar (n : Nat) : Char := Char.ofNat (48 + n)

/-- Decimal digit list of a natural number, most significant first, no
leading zeros (and `[0]` for zero), as Python's `str`/`repr` of an `int`
produces. -/
def natDigits (n : Nat) : List Char :=
  if h : n < 10 then [digitChar n]
  else natDigits (n / 10) ++ [digitChar (n % 10)]
decreasing_by
  have : 10 ≤ n := Nat.le_of_not_lt h
  exact Nat.div_lt_self (by omega) (by omega)

/-- Decimal rendering of an integer, as Python's `str`/`repr` of an `int`
produces (a minus sign followed by the digits for negatives). -/
def intRepr (z : Int) : List Char :=
  if z < 0 then '-' :: natDigits z.natAbs else natDigits z.toNat

/-- JSON/Python whitespace as skipped by the parsers modelled here. -/
def isWs (c : Char) : Bool := c == ' ' || c == '\n' || c == '\t' || c == '\r'

/-- Drop leading whitespace from a character list. -/
def skipWs : List Char → List Char
  | [] => []
  | c :: cs => if isWs c then skipWs cs else c :: cs

/-- Boolean test: the first list starts with the second. -/
def listStarts : List Char → List Char → Bool
  | _, [] => true
  | [], _ :: _ => false
  | a :: as, b :: bs => a == b && listStarts as bs

/-- Boolean substring test: `sub` occurs contiguously inside `hay`
(Python's `sub in hay` on strings). -/
def listHas (sub : List Char) : List Char → Bool
  | [] => listStarts [] sub
  | c :: tl => listStarts (c :: tl) sub || listHas sub tl

/-- Python's `sub in hay` substring test on strings. -/
def strContains (hay sub : String) : Bool := listHas sub.toList hay.toList

/-- Containment of one string in another, as a proposition with explicit
split witnesses. -/
def StrContains (hay sub : String) : Prop := ∃ a b : String, hay = a ++ sub ++ b

/-- Python's `str.strip()`: leading and trailing whitespace removed. -/
def pyStrip (s : String) : String :=
  String.mk (((s.toList.dropWhile (fun c => isWs c)).reverse.dropWhile
    (fun c => isWs c)).reverse)

/-- Spaces used by the JSON serializer's indentation. -/
def sp (n : Nat) : List Char := List.replicate n ' '

/-! ## Facts about digits -/

theorem natDigits_ne_nil (n : Nat) : natDigits n ≠ [] := by
  unfold natDigits
  split
  · simp
  · simp

theorem natDigits_small (n : Nat) (h : n < 10) : natDigits n = [digitChar n] := by
  unfold natDigits
  simp [h]

theorem natDigits_big (n : Nat) (h : ¬ n < 10) :
    natDigits n = natDigits (n / 10) ++ [digitChar (n % 10)] := by
  conv_lhs => unfold natDigits
  simp [h]

theorem isDigitCh_digitChar (n : Nat) (h : n < 10) : isDigitCh (digitChar n) = true := by
  interval_cases n <;> decide

theorem digitVal_digitChar (n : Nat) (h : n < 10) : digitVal (digitChar n) = n := by
  interval_cases n <;> decide

theorem digitChar_eq_zeroChar (n : Nat) (h : n < 10) : (digitChar n == '0') = (n == 0) := by
  interval_cases n <;> decide

/-! ## Parsing natural numbers and integers from decimal text -/

/-- Greedily consume decimal digits, extending the accumulator. -/
def parseNatAux (acc : Nat) : List Char → Nat × List Char
  | [] => (acc, [])
  | c :: cs => if isDigitCh c then parseNatAux (10 * acc + digitVal c) cs else (acc, c :: cs)

/-- Does the list start with a decimal digit? -/
def startsDigit : List Char → Bool
  | [] => false
  | c :: _ => isDigitCh c

/-- JSON natural-number literal: at least one digit; a leading `0` must
stand alone (as `json.load` demands). -/
def parseNatJ : List Char → Option (Nat × List Char)
  | [] => none
  | c :: cs =>
      if isDigitCh c then
        if c == '0' then some (0, cs) else some (parseNatAux (digitVal c) cs)
      else none

/-- Powers of ten matching the digit count of a number. -/
def tenPow (n : Nat) : Nat := 10 ^ (natDigits n).length

theorem parseNatAux_stop (acc : Nat) (rest : List Char) (h : startsDigit rest = false) :
    parseNatAux acc rest = (acc, rest) := by
  cases rest with
  | nil => rfl
  | cons c cs => simp [startsDigit] at h; simp [parseNatAux, h]

theorem parseNatAux_digits (n : Nat) : ∀ acc rest,
    parseNatAux acc (natDigits n ++ rest) = parseNatAux (acc * tenPow n + n) rest := by
  induction n using Nat.strong_induction_on with
  | _ n ih =>
    intro acc rest
    by_cases h : n < 10
    · rw [natDigits_small n h]
      simp only [List.cons_append, List.nil_append, parseNatAux,
        isDigitCh_digitChar n h, if_true, digitVal_digitChar n h]
      have : tenPow n = 10 := by
        simp [tenPow, natDigits_small n h]
      rw [this]
      ring_nf
      simp
    · rw [natDigits_big n h]
      have hdiv : n / 10 < n := Nat.div_lt_self (by omega) (by omega)
      rw [List.append_assoc, ih (n / 10) hdiv acc _]
      have hm : n % 10 < 10 := Nat.mod_lt _ (by omega)
      simp only [List.cons_append, List.nil_append, parseNatAux,
        isDigitCh_digitChar _ hm, if_true, digitVal_digitChar _ hm]
      have hten : tenPow n = 10 * tenPow (n / 10) := by
        simp [tenPow, natDigits_big n h, List.length_append, pow_succ]
        ring
      have hsplit : 10 * (n / 10) + n % 10 = n := by omega
      rw [hten]
      ring_nf
      congr 1
      omega

theorem natDigits_head_ne_zero (n : Nat) (hn : 0 < n) :
    ∃ c cs, natDigits n = c :: cs ∧ isDigitCh c = true ∧ (c == '0') = false := by
  induction n using Nat.strong_induction_on with
  | _ n ih =>
    by_cases h : n < 10
    · refine ⟨digitChar n, [], natDigits_small n h, isDigitCh_digitChar n h, ?_⟩
      rw [digitChar_eq_zeroChar n h]
      simp
      omega
    · have hdiv : n / 10 < n := Nat.div_lt_self (by omega) (by omega)
      have hpos : 0 < n / 10 := by
        have : 10 ≤ n := by omega
        exact Nat.div_pos this (by omega)
      obtain ⟨c, cs, hc, hd, hz⟩ := ih (n / 10) hdiv hpos
      exact ⟨c, cs ++ [digitChar (n % 10)], by rw [natDigits_big n h, hc]; simp, hd, hz⟩

theorem parseNatJ_natDigits (n : Nat) (rest : List Char) (h : startsDigit rest = false) :
    parseNatJ (natDigits n ++ rest) = some (n, rest) := by
  by_cases hn : n = 0
  · subst hn
    rw [natDigits_small 0 (by omega)]
    simp [parseNatJ, digitChar, isDigitCh]
  · obtain ⟨c, cs, hc, hd, hz⟩ := natDigits_head_ne_zero n (by omega)
    rw [hc]
    simp only [List.cons_append, parseNatJ, hd, if_true, hz, Bool.false_eq_true, if_false]
    have key : parseNatAux 0 (natDigits n ++ rest) = (n, rest) := by
      rw [parseNatAux_digits n 0 rest, Nat.zero_mul, Nat.zero_add, parseNatAux_stop n rest h]
    rw [hc] at key
    simp only [List.cons_append, parseNatAux, hd, if_true] at key
    rw [Nat.mul_zero, Nat.zero_add] at key
    exact congrArg some key

/-! ## Hexadecimal digits for JSON string escapes -/

/-- Lowercase hexadecimal digit character, as Python's `%04x` formatting
emits. -/
def hexDigitCh (n : Nat) : Char :=
  if n < 10 then Char.ofNat (48 + n) else Char.ofNat (87 + n)

/-- Value of a hexadecimal digit character, accepting both cases, as
`json.load` does. -/
def hexVal (c : Char) : Option Nat :=
  if isDigitCh c then some (digitVal c)
  else if decide ('a' ≤ c) && decide (c ≤ 'f') then some (c.toNat - 87)
  else if decide ('A' ≤ c) && decide (c ≤ 'F') then some (c.toNat - 55)
  else none

/-- Four lowercase hex digits for a value below 2^16. -/
def hex4 (n : Nat) : List Char :=
  [hexDigitCh (n / 4096 % 16), hexDigitCh (n / 256 % 16), hexDigitCh (n / 16 % 16),
    hexDigitCh (n % 16)]

/-- Read four hex digits from the front of a list. -/
def read4Hex : List Char → Option (Nat × List Char)
  | a :: b :: c :: d :: rest =>
      match hexVal a, hexVal b, hexVal c, hexVal d with
      | some x, some y, some z, some w => some (4096 * x + 256 * y + 16 * z + w, rest)
      | _, _, _, _ => none
  | _ => none

theorem hexVal_hexDigitCh (n : Nat) (h : n < 16) : hexVal (hexDigitCh n) = some n := by
  interval_cases n <;> decide

theorem read4Hex_hex4 (n : Nat) (h : n < 65536) (rest : List Char) :
    read4Hex (hex4 n ++ rest) = some (n, rest) := by
  have h1 : n / 4096 % 16 < 16 := Nat.mod_lt _ (by omega)
  have h2 : n / 256 % 16 < 16 := Nat.mod_lt _ (by omega)
  have h3 : n / 16 % 16 < 16 := Nat.mod_lt _ (by omega)
  have h4 : n % 16 < 16 := Nat.mod_lt _ (by omega)
  simp only [hex4, List.cons_append, List.nil_append, read4Hex,
    hexVal_hexDigitCh _ h1, hexVal_hexDigitCh _ h2, hexVal_hexDigitCh _ h3,
    hexVal_hexDigitCh _ h4]
  congr 1
  congr 1
  omega

/-! ## The Python/JSON value model -/

/-- Keys of a Python dict as they appear in this module: strings, or the
integers exercised by the JSON-persistence claims.  Python coerces
non-string keys to strings when serializing. -/
inductive PKey where
  | str (s : String)
  | int (z : Int)
deriving DecidableEq, Repr

mutual
/-- A Python value in the JSON-serializable fragment this module moves
around: `None`, `bool`, `int`, `str`, lists, and dicts.  Machine floats
are outside the model (no claim exercises them). -/
inductive PVal where
  | null
  | bool (b : Bool)
  | int (z : Int)
  | str (s : String)
  | arr (xs : PArr)
  | obj (kvs : PObj)
deriving DecidableEq, Repr

/-- A Python list of `PVal`. -/
inductive PArr where
  | nil
  | cons (hd : PVal) (tl : PArr)
deriving DecidableEq, Repr

/-- A Python dict in insertion order: a list of key-value pairs. -/
inductive PObj where
  | nil
  | cons (k : PKey) (v : PVal) (tl : PObj)
deriving DecidableEq, Repr
end

mutual
/-- Node count of a value, the fuel measure for the JSON parser. -/
def psize : PVal → Nat
  | .null => 1
  | .bool _ => 1
  | .int _ => 1
  | .str _ => 1
  | .arr xs => 1 + psizeArr xs
  | .obj kvs => 1 + psizeObj kvs

/-- Node count of a list of values. -/
def psizeArr : PArr → Nat
  | .nil => 0
  | .cons x xs => 1 + psize x + psizeArr xs

/-- Node count of a dict. -/
def psizeObj : PObj → Nat
  | .nil => 0
  | .cons _ v tl => 1 + psize v + psizeObj tl
end

theorem psize_pos (v : PVal) : 0 < psize v := by
  cases v <;> simp [psize]

/-! ## JSON string escaping, as Python `json.dump` with `ensure_ascii` -/

/-- Escape one character the way Python's `json.dump` does by default:
shorthand escapes for the common control characters, printable ASCII kept,
everything else as `\uXXXX` (a surrogate pair for characters beyond the
basic multilingual plane). -/
def escChar (c : Char) : List Char :=
  if c == '"' then ['\\', '"']
  else if c == '\\' then ['\\', '\\']
  else if c == '\n' then ['\\', 'n']
  else if c == '\t' then ['\\', 't']
  else if c == '\r' then ['\\', 'r']
  else if c.toNat == 8 then ['\\', 'b']
  else if c.toNat == 12 then ['\\', 'f']
  else if 32 ≤ c.toNat ∧ c.toNat ≤ 126 then [c]
  else if c.toNat < 65536 then '\\' :: 'u' :: hex4 c.toNat
  else
    ('\\' :: 'u' :: hex4 (55296 + (c.toNat - 65536) / 1024)) ++
      ('\\' :: 'u' :: hex4 (56320 + (c.toNat - 65536) % 1024))

/-- Escape a whole string body. -/
def escStr : List Char → List Char
  | [] => []
  | c :: cs => escChar c ++ escStr cs

/-- Decoded character of a single-letter JSON escape, as `json.load`
accepts. -/
def escCode (e : Char) : Option Char :=
  if e == '"' then some '"'
  else if e == '\\' then some '\\'
  else if e == '/' then some '/'
  else if e == 'b' then some (Char.ofNat 8)
  else if e == 'f' then some (Char.ofNat 12)
  else if e == 'n' then some '\n'
  else if e == 'r' then some '\r'
  else if e == 't' then some '\t'
  else none

theorem read4Hex_length (l rest : List Char) (n : Nat) (h : read4Hex l = some (n, rest)) :
    rest.length + 4 = l.length := by
  match l with
  | [] => simp [read4Hex] at h
  | [a] => simp [read4Hex] at h
  | [a, b] => simp [read4Hex] at h
  | [a, b, c] => simp [read4Hex] at h
  | a :: b :: c :: d :: tl =>
      simp only [read4Hex] at h
      rcases ha : hexVal a with _ | x1 <;> rw [ha] at h <;> try simp at h
      rcases hb : hexVal b with _ | x2 <;> rw [hb] at h <;> try simp at h
      rcases hc : hexVal c with _ | x3 <;> rw [hc] at h <;> try simp at h
      rcases hd : hexVal d with _ | x4 <;> rw [hd] at h <;> try simp at h
      obtain ⟨h1, h2⟩ := h
      subst h2
      simp

/-- Parse a JSON string body up to and including the closing quote, as
`json.load` does in strict mode: raw control characters are rejected, the
named escapes and `\uXXXX` are decoded, and a high surrogate followed by a
low surrogate is combined into one character.  A lone surrogate would
produce a string value outside Lean's `Char` and is modelled as a parse
failure (no fixture input here produces one). -/
def parseStrBody (l : List Char) : Option (List Char × List Char) :=
  match l with
  | [] => none
  | c :: cs =>
    if c == '"' then some ([], cs)
    else if c == '\\' then
      match cs with
      | [] => none
      | e :: cs2 =>
        match escCode e with
        | some r => (parseStrBody cs2).map (fun p => (r :: p.1, p.2))
        | none =>
          if e == 'u' then
            match h4 : read4Hex cs2 with
            | none => none
            | some (n, cs3) =>
              if 55296 ≤ n ∧ n ≤ 56319 then
                match cs3 with
                | e1 :: e2 :: cs4 =>
                  if e1 == '\\' && e2 == 'u' then
                    match h8 : read4Hex cs4 with
                    | none => none
                    | some (m, cs5) =>
                      if 56320 ≤ m ∧ m ≤ 57343 then
                        (parseStrBody cs5).map (fun p =>
                          (Char.ofNat (65536 + (n - 55296) * 1024 + (m - 56320)) :: p.1, p.2))
                      else none
                  else none
                | _ => none
              else if 56320 ≤ n ∧ n ≤ 57343 then none
              else (parseStrBody cs3).map (fun p => (Char.ofNat n :: p.1, p.2))
          else none
    else if c.toNat < 32 then none
    else (parseStrBody cs).map (fun p => (c :: p.1, p.2))
termination_by l.length
decreasing_by
  · simp
    omega
  · have t1 := read4Hex_length _ _ _ h4
    have t2 := read4Hex_length _ _ _ h8
    simp at *
    omega
  · have t1 := read4Hex_length _ _ _ h4
    simp at *
    omega
  · simp

theorem char_toNat_valid (c : Char) :
    c.toNat < 55296 ∨ (57343 < c.toNat ∧ c.toNat < 1114112) := by
  have h := c.valid
  rcases h with h | ⟨h1, h2⟩
  · left
    exact h
  · right
    exact ⟨h1, h2⟩

theorem pSB_quote (rest : List Char) : parseStrBody ('"' :: rest) = some ([], rest) := by
  rw [parseStrBody.eq_def]
  rfl

theorem pSB_esc (e r : Char) (tl : List Char) (h : escCode e = some r) :
    parseStrBody ('\\' :: e :: tl) = (parseStrBody tl).map (fun p => (r :: p.1, p.2)) := by
  rw [parseStrBody.eq_def]
  simp only [h]
  rfl

theorem pSB_plain (c : Char) (tl : List Char) (h1 : (c == '"') = false)
    (h2 : (c == '\\') = false) (h3 : ¬ c.toNat < 32) :
    parseStrBody (c :: tl) = (parseStrBody tl).map (fun p => (c :: p.1, p.2)) := by
  rw [parseStrBody.eq_def]
  simp only [h1, h2, h3, if_false, Bool.false_eq_true, ite_false]

theorem pSB_u (tl rest : List Char) (n : Nat) (h4 : read4Hex tl = some (n, rest))
    (hno : ¬ (55296 ≤ n ∧ n ≤ 56319)) (hno2 : ¬ (56320 ≤ n ∧ n ≤ 57343)) :
    parseStrBody ('\\' :: 'u' :: tl) =
      (parseStrBody rest).map (fun p => (Char.ofNat n :: p.1, p.2)) := by
  have e1 : ('\\' == '"') = false := rfl
  have e2 : ('\\' == '\\') = true := rfl
  have e3 : escCode 'u' = none := rfl
  have e4 : ('u' == 'u') = true := rfl
  rw [parseStrBody.eq_def]
  simp only [e1, e2, e3, e4, Bool.false_eq_true, if_false, if_true, ite_true, ite_false]
  split
  · next heq =>
      rw [h4] at heq
      cases heq
  · next n' cs3 heq =>
      rw [h4] at heq
      simp only [Option.some.injEq, Prod.mk.injEq] at heq
      obtain ⟨rfl, rfl⟩ := heq
      rw [if_neg hno, if_neg hno2]

theorem pSB_u_pair (tl mid rest : List Char) (n m : Nat)
    (h4 : read4Hex tl = some (n, '\\' :: 'u' :: mid))
    (h8 : read4Hex mid = some (m, rest))
    (hhi : 55296 ≤ n ∧ n ≤ 56319) (hlo : 56320 ≤ m ∧ m ≤ 57343) :
    parseStrBody ('\\' :: 'u' :: tl) =
      (parseStrBody rest).map (fun p =>
        (Char.ofNat (65536 + (n - 55296) * 1024 + (m - 56320)) :: p.1, p.2)) := by
  have e1 : ('\\' == '"') = false := rfl
  have e2 : ('\\' == '\\') = true := rfl
  have e3 : escCode 'u' = none := rfl
  have e4 : ('u' == 'u') = true := rfl
  rw [parseStrBody.eq_def]
  simp only [e1, e2, e3, e4, Bool.false_eq_true, if_false, if_true, ite_true, ite_false]
  split
  · next heq =>
      rw [h4] at heq
      cases heq
  · next n' cs3 heq =>
      rw [h4] at heq
      simp only [Option.some.injEq, Prod.mk.injEq] at heq
      obtain ⟨rfl, rfl⟩ := heq
      rw [if_pos hhi]
      have e5 : ('\\' == '\\' && 'u' == 'u') = true := rfl
      simp only [e5, if_true, ite_true]
      split
      · next heq2 =>
          rw [h8] at heq2
          cases heq2
      · next m' cs5 heq2 =>
          rw [h8] at heq2
          simp only [Option.some.injEq, Prod.mk.injEq] at heq2
          obtain ⟨rfl, rfl⟩ := heq2
          rw [if_pos hlo]

theorem parseStrBody_escStr (l : List Char) : ∀ rest : List Char,
    parseStrBody (escStr l ++ '"' :: rest) = some (l, rest) := by
  induction l with
  | nil =>
      intro rest
      simpa [escStr] using pSB_quote rest
  | cons c cs ih =>
      intro rest
      simp only [escStr, List.append_assoc]
      by_cases hq : c = '"'
      · subst hq
        have he : escChar '"' = ['\\', '"'] := by decide
        rw [he]
        simp only [List.cons_append, List.nil_append]
        rw [pSB_esc '"' '"' _ rfl, ih rest]
        rfl
      by_cases hbs : c = '\\'
      · subst hbs
        have he : escChar '\\' = ['\\', '\\'] := by decide
        rw [he]
        simp only [List.cons_append, List.nil_append]
        rw [pSB_esc '\\' '\\' _ rfl, ih rest]
        rfl
      by_cases hn : c = '\n'
      · subst hn
        have he : escChar '\n' = ['\\', 'n'] := by decide
        rw [he]
        simp only [List.cons_append, List.nil_append]
        rw [pSB_esc 'n' '\n' _ rfl, ih rest]
        rfl
      by_cases ht : c = '\t'
      · subst ht
        have he : escChar '\t' = ['\\', 't'] := by decide
        rw [he]
        simp only [List.cons_append, List.nil_append]
        rw [pSB_esc 't' '\t' _ rfl, ih rest]
        rfl
      by_cases hr : c = '\r'
      · subst hr
        have he : escChar '\r' = ['\\', 'r'] := by decide
        rw [he]
        simp only [List.cons_append, List.nil_append]
        rw [pSB_esc 'r' '\r' _ rfl, ih rest]
        rfl
      by_cases hb : c.toNat = 8
      · have hc : Char.ofNat 8 = c := by rw [← hb, Char.ofNat_toNat]
        have he : escChar c = ['\\', 'b'] := by
          simp [escChar, hq, hbs, hn, ht, hr, hb]
        rw [he]
        simp only [List.cons_append, List.nil_append]
        rw [pSB_esc 'b' (Char.ofNat 8) _ rfl, ih rest, hc]
        rfl
      by_cases hf : c.toNat = 12
      · have hc : Char.ofNat 12 = c := by rw [← hf, Char.ofNat_toNat]
        have he : escChar c = ['\\', 'f'] := by
          simp [escChar, hq, hbs, hn, ht, hr, hb, hf]
        rw [he]
        simp only [List.cons_append, List.nil_append]
        rw [pSB_esc 'f' (Char.ofNat 12) _ rfl, ih rest, hc]
        rfl
      by_cases hpr : 32 ≤ c.toNat ∧ c.toNat ≤ 126
      · have h32 : ¬ c.toNat < 32 := by omega
        have hqb : (c == '"') = false := by simp [hq]
        have hbsb : (c == '\\') = false := by simp [hbs]
        have he : escChar c = [c] := by
          simp [escChar, hq, hbs, hn, ht, hr, hb, hf, hpr]
        rw [he]
        simp only [List.cons_append, List.nil_append]
        rw [pSB_plain c _ hqb hbsb h32, ih rest]
        rfl
      by_cases hbmp : c.toNat < 65536
      · have hsur : ¬ (55296 ≤ c.toNat ∧ c.toNat ≤ 56319) := by
          rcases char_toNat_valid c with h | ⟨h, _⟩ <;> omega
        have hsur2 : ¬ (56320 ≤ c.toNat ∧ c.toNat ≤ 57343) := by
          rcases char_toNat_valid c with h | ⟨h, _⟩ <;> omega
        have hc : Char.ofNat c.toNat = c := Char.ofNat_toNat c
        have he : escChar c = '\\' :: 'u' :: hex4 c.toNat := by
          simp [escChar, hq, hbs, hn, ht, hr, hb, hf, hpr, hbmp]
        rw [he]
        simp only [List.cons_append, List.nil_append, List.append_assoc]
        rw [pSB_u _ _ c.toNat (read4Hex_hex4 c.toNat hbmp _) hsur hsur2, ih rest, hc]
        rfl
      · have hup : c.toNat < 1114112 := by
          rcases char_toNat_valid c with h | ⟨_, h⟩ <;> omega
        have hdiv : (c.toNat - 65536) / 1024 < 1024 := by
          apply Nat.div_lt_of_lt_mul
          omega
        have hmod : (c.toNat - 65536) % 1024 < 1024 := Nat.mod_lt _ (by omega)
        have hhi : 55296 ≤ 55296 + (c.toNat - 65536) / 1024 ∧
            55296 + (c.toNat - 65536) / 1024 ≤ 56319 := by omega
        have hlo : 56320 ≤ 56320 + (c.toNat - 65536) % 1024 ∧
            56320 + (c.toNat - 65536) % 1024 ≤ 57343 := by omega
        have hhi16 : 55296 + (c.toNat - 65536) / 1024 < 65536 := by omega
        have hlo16 : 56320 + (c.toNat - 65536) % 1024 < 65536 := by omega
        have hcomb : 65536 + (55296 + (c.toNat - 65536) / 1024 - 55296) * 1024 +
            (56320 + (c.toNat - 65536) % 1024 - 56320) = c.toNat := by omega
        have hc : Char.ofNat c.toNat = c := Char.ofNat_toNat c
        have he : escChar c = ('\\' :: 'u' :: hex4 (55296 + (c.toNat - 65536) / 1024)) ++
            ('\\' :: 'u' :: hex4 (56320 + (c.toNat - 65536) % 1024)) := by
          simp [escChar, hq, hbs, hn, ht, hr, hb, hf, hpr, hbmp]
        rw [he]
        simp only [List.cons_append, List.nil_append, List.append_assoc]
        rw [pSB_u_pair _ _ _ _ _
          (read4Hex_hex4 _ hhi16 _) (read4Hex_hex4 _ hlo16 _) hhi hlo, ih rest, hcomb, hc]
        rfl

/-! ## Python dict primitives -/

/-- Python `==` on the dict keys modelled here: strings and ints never
compare equal across types. -/
def pkeyEqB : PKey → PKey → Bool
  | .str a, .str b => a == b
  | .int a, .int b => a == b
  | _, _ => false

/-- Python dict lookup (`d[k]` / `k in d`): the value stored at an equal
key, if any. -/
def lookupPy (k : PKey) : PObj → Option PVal
  | .nil => none
  | .cons k2 v tl => if pkeyEqB k2 k then some v else lookupPy k tl

/-- Python dict insertion (`d[k] = v`): update in place if an equal key
exists (keeping the original key and its position), else append. -/
def pobjSet : PObj → PKey → PVal → PObj
  | .nil, k, v => .cons k v .nil
  | .cons k2 v2 tl, k, v =>
      if pkeyEqB k2 k then .cons k2 v tl else .cons k2 v2 (pobjSet tl k v)

/-- Python `str(key)` coercion applied by `json.dump` to non-string dict
keys (here: the `int` keys the persistence claims exercise). -/
def keyStr : PKey → String
  | .str s => s
  | .int z => String.mk (intRepr z)

/-! ## The JSON serializer: `json.dump(v, fp, indent=4, sort_keys=True)` -/

/-- Serialized form of one dict key: quoted, escaped, coerced to a string. -/
def dumpKeyChars (k : PKey) : List Char := '"' :: escStr (keyStr k).toList ++ ['"']

mutual
/-- Serialize one value at indentation depth `d`, exactly as Python's
`json.dump` with `indent=4` renders it (sorting of dict keys is factored
out into `canonSort` below, which runs before this). -/
def dumpVal (v : PVal) (d : Nat) : List Char :=
  match v with
  | .null => 'n' :: ['u', 'l', 'l']
  | .bool true => 't' :: ['r', 'u', 'e']
  | .bool false => 'f' :: ['a', 'l', 's', 'e']
  | .int z => intRepr z
  | .str s => '"' :: escStr s.toList ++ ['"']
  | .arr .nil => ['[', ']']
  | .arr (.cons x xs) => '[' :: '\n' :: (dumpItems x xs (d + 1) ++ '\n' :: (sp (4 * d) ++ [']']))
  | .obj .nil => [lbrace, rbrace]
  | .obj (.cons k v2 tl) =>
      lbrace :: '\n' :: (dumpEntries k v2 tl (d + 1) ++ '\n' :: (sp (4 * d) ++ [rbrace]))
termination_by psize v
decreasing_by
  all_goals simp [psize, psizeArr, psizeObj]
  all_goals omega

/-- Serialize the comma-and-newline separated items of a nonempty list. -/
def dumpItems (x : PVal) (xs : PArr) (d : Nat) : List Char :=
  match xs with
  | .nil => sp (4 * d) ++ dumpVal x d
  | .cons y ys => sp (4 * d) ++ dumpVal x d ++ ',' :: '\n' :: dumpItems y ys d
termination_by psizeArr (.cons x xs)
decreasing_by
  all_goals simp [psize, psizeArr, psizeObj]
  all_goals omega

/-- Serialize the entries of a nonempty dict. -/
def dumpEntries (k : PKey) (v : PVal) (tl : PObj) (d : Nat) : List Char :=
  match tl with
  | .nil => sp (4 * d) ++ dumpKeyChars k ++ ':' :: ' ' :: dumpVal v d
  | .cons k2 v2 tl2 =>
      sp (4 * d) ++ dumpKeyChars k ++ ':' :: ' ' :: dumpVal v d ++
        ',' :: '\n' :: dumpEntries k2 v2 tl2 d
termination_by psizeObj (.cons k v tl)
decreasing_by
  all_goals simp [psize, psizeArr, psizeObj]
  all_goals omega
end

/-! ## The JSON parser: `json.load` -/

/-- Does the remainder start a fractional or exponent part (which would
make the number a Python float, outside this model)? -/
def startsFrac : List Char → Bool
  | [] => false
  | c :: _ => c == '.' || c == 'e' || c == 'E'

mutual
/-- Fuel-indexed recursive-descent JSON value parser modelling
`json.load`: leading whitespace skipped, strings, ints, literals, arrays
and objects.  Floats (fraction, exponent, `NaN`, `Infinity`) are outside
the value model and parse as failures. -/
def parseVal : Nat → List Char → Option (PVal × List Char)
  | 0, _ => none
  | fuel + 1, input =>
    match skipWs input with
    | [] => none
    | c :: cs =>
      if c == '"' then (parseStrBody cs).map (fun p => (.str (String.mk p.1), p.2))
      else if c == '[' then
        match skipWs cs with
        | c2 :: cs2 => if c2 == ']' then some (.arr .nil, cs2)
            else (parseArrItems fuel cs).map (fun q => (.arr q.1, q.2))
        | [] => none
      else if c == lbrace then
        match skipWs cs with
        | c2 :: cs2 => if c2 == rbrace then some (.obj .nil, cs2)
            else (parseObjItems fuel .nil cs).map (fun q => (.obj q.1, q.2))
        | [] => none
      else if c == 'n' then
        match cs with
        | 'u' :: 'l' :: 'l' :: r => some (.null, r)
        | _ => none
      else if c == 't' then
        match cs with
        | 'r' :: 'u' :: 'e' :: r => some (.bool true, r)
        | _ => none
      else if c == 'f' then
        match cs with
        | 'a' :: 'l' :: 's' :: 'e' :: r => some (.bool false, r)
        | _ => none
      else if c == '-' then
        (parseNatJ cs).bind fun p =>
          if startsFrac p.2 then none else some (.int (-(p.1 : Int)), p.2)
      else
        (parseNatJ (c :: cs)).bind fun p =>
          if startsFrac p.2 then none else some (.int (p.1 : Int), p.2)

/-- Parse the items of a nonempty array, in order. -/
def parseArrItems : Nat → List Char → Option (PArr × List Char)
  | 0, _ => none
  | fuel + 1, input =>
    (parseVal fuel input).bind fun p =>
      match skipWs p.2 with
      | c :: r2 =>
          if c == ',' then
            (parseArrItems fuel r2).map (fun q => (.cons p.1 q.1, q.2))
          else if c == ']' then some (.cons p.1 .nil, r2)
          else none
      | [] => none

/-- Parse the entries of a nonempty object, accumulating into a dict with
Python's insertion semantics (an equal key keeps its position, the later
value wins). -/
def parseObjItems : Nat → PObj → List Char → Option (PObj × List Char)
  | 0, _, _ => none
  | fuel + 1, acc, input =>
    match skipWs input with
    | c :: cs =>
        if c == '"' then
          (parseStrBody cs).bind fun pk =>
            match skipWs pk.2 with
            | c2 :: r2 =>
                if c2 == ':' then
                  (parseVal fuel r2).bind fun pv =>
                    match skipWs pv.2 with
                    | c3 :: r4 =>
                        if c3 == ',' then
                          parseObjItems fuel (pobjSet acc (.str (String.mk pk.1)) pv.1) r4
                        else if c3 == rbrace then
                          some (pobjSet acc (.str (String.mk pk.1)) pv.1, r4)
                        else none
                    | [] => none
                else none
            | [] => none
        else none
    | [] => none
end

/-- Model of `json.load` on a whole document: parse one value with enough
fuel, then require only whitespace to remain, as Python does. -/
def jsonLoadContent (s : String) : Option PVal :=
  match parseVal (s.toList.length + 1) s.toList with
  | some (v, rest) => if skipWs rest = [] then some v else none
  | none => none

/-! ## Auxiliary facts for the round-trip proof -/

theorem char_beq_false {c c2 : Char} (h : c.toNat ≠ c2.toNat) : (c == c2) = false := by
  rw [beq_eq_false_iff_ne]
  intro e
  exact h (by rw [e])

theorem isDigitCh_toNat {c : Char} (h : isDigitCh c = true) :
    48 ≤ c.toNat ∧ c.toNat ≤ 57 := by
  simp only [isDigitCh, Bool.and_eq_true, decide_eq_true_eq] at h
  exact ⟨h.1, h.2⟩

theorem isWs_of_digit {c : Char} (h : isDigitCh c = true) : isWs c = false := by
  have hr := isDigitCh_toNat h
  have e1 : (' ').toNat = 32 := rfl
  have e2 : ('\n').toNat = 10 := rfl
  have e3 : ('\t').toNat = 9 := rfl
  have e4 : ('\r').toNat = 13 := rfl
  simp only [isWs, Bool.or_eq_false_iff]
  exact ⟨⟨⟨char_beq_false (by rw [e1]; omega), char_beq_false (by rw [e2]; omega)⟩,
    char_beq_false (by rw [e3]; omega)⟩, char_beq_false (by rw [e4]; omega)⟩

/-- All characters in the list are whitespace. -/
def wsOnly : List Char → Bool
  | [] => true
  | c :: cs => isWs c && wsOnly cs

/-- The remainder cannot extend a just-parsed number: it does not start
with a digit, a decimal point, or an exponent letter. -/
def stopOk : List Char → Bool
  | [] => true
  | c :: _ => !(isDigitCh c || c == '.' || c == 'e' || c == 'E')

theorem skipWs_wsOnly {ws : List Char} (h : wsOnly ws = true) (rest : List Char) :
    skipWs (ws ++ rest) = skipWs rest := by
  induction ws with
  | nil => rfl
  | cons c cs ih =>
      simp only [wsOnly, Bool.and_eq_true] at h
      simp [skipWs, h.1, ih h.2]

theorem skipWs_nonWs {c : Char} (h : isWs c = false) (rest : List Char) :
    skipWs (c :: rest) = c :: rest := by
  simp [skipWs, h]

theorem wsOnly_sp (n : Nat) : wsOnly (sp n) = true := by
  induction n with
  | zero => rfl
  | succ m ih =>
      simp only [sp, List.replicate_succ, wsOnly] at ih ⊢
      rw [ih]
      rfl

theorem wsOnly_append {a b : List Char} (ha : wsOnly a = true) (hb : wsOnly b = true) :
    wsOnly (a ++ b) = true := by
  induction a with
  | nil => exact hb
  | cons c cs ih =>
      simp only [wsOnly, Bool.and_eq_true] at ha
      simp [wsOnly, ha.1, ih ha.2]

theorem natDigits_head_digit (n : Nat) :
    ∃ c cs, natDigits n = c :: cs ∧ isDigitCh c = true := by
  induction n using Nat.strong_induction_on with
  | _ n ih =>
    by_cases h : n < 10
    · exact ⟨digitChar n, [], natDigits_small n h, isDigitCh_digitChar n h⟩
    · have hdiv : n / 10 < n := Nat.div_lt_self (by omega) (by omega)
      obtain ⟨c, cs, hc, hd⟩ := ih (n / 10) hdiv
      exact ⟨c, cs ++ [digitChar (n % 10)], by rw [natDigits_big n h, hc]; simp, hd⟩

/-- Heads of serialized values: nonempty, non-whitespace, and never a
closing bracket or brace. -/
theorem dumpVal_head (v : PVal) (d : Nat) :
    ∃ c cs, dumpVal v d = c :: cs ∧ isWs c = false ∧ (c == ']') = false ∧
      (c == rbrace) = false := by
  cases v with
  | null => exact ⟨'n', ['u', 'l', 'l'], by simp [dumpVal], by decide, by decide, by decide⟩
  | bool b => cases b with
      | true =>
          exact ⟨'t', ['r', 'u', 'e'], by simp [dumpVal], by decide, by decide, by decide⟩
      | false =>
          exact ⟨'f', ['a', 'l', 's', 'e'], by simp [dumpVal], by decide, by decide, by decide⟩
  | int z =>
      by_cases h : z < 0
      · refine ⟨'-', natDigits z.natAbs, ?_, by decide, by decide, by decide⟩
        simp [dumpVal, intRepr, h]
      · obtain ⟨c, cs, hc, hd⟩ := natDigits_head_digit z.toNat
        have hr := isDigitCh_toNat hd
        refine ⟨c, cs, ?_, isWs_of_digit hd, ?_, ?_⟩
        · simp [dumpVal, intRepr, h, hc]
        · exact char_beq_false (by have e : (']').toNat = 93 := rfl; rw [e]; omega)
        · exact char_beq_false (by have e : rbrace.toNat = 125 := rfl; rw [e]; omega)
  | str s =>
      exact ⟨'"', escStr s.toList ++ ['"'], by simp [dumpVal], by decide, by decide, by decide⟩
  | arr xs => cases xs with
      | nil => exact ⟨'[', [']'], by simp [dumpVal], by decide, by decide, by decide⟩
      | cons x tl =>
          exact ⟨'[', '\n' :: (dumpItems x tl (d + 1) ++ '\n' :: (sp (4 * d) ++ [']'])),
            by simp [dumpVal], by decide, by decide, by decide⟩
  | obj kvs => cases kvs with
      | nil => exact ⟨lbrace, [rbrace], by simp [dumpVal], by decide, by decide, by decide⟩
      | cons k v2 tl =>
          exact ⟨lbrace, '\n' :: (dumpEntries k v2 tl (d + 1) ++ '\n' :: (sp (4 * d) ++ [rbrace])),
            by simp [dumpVal], by decide, by decide, by decide⟩

/-! ## Dict accumulation facts -/

/-- Concatenation of two dicts with disjoint keys, in order. -/
def oappend : PObj → PObj → PObj
  | .nil, o => o
  | .cons k v tl, o => .cons k v (oappend tl o)

/-- Left fold of Python dict insertion over the entries of the second
dict, as the object parser performs. -/
def objExtend : PObj → PObj → PObj
  | acc, .nil => acc
  | acc, .cons k v tl => objExtend (pobjSet acc k v) tl

/-- No key occurs twice (by Python key equality). -/
def nodupKeysB : PObj → Bool
  | .nil => true
  | .cons k _ tl => (lookupPy k tl).isNone && nodupKeysB tl

/-- Every key of the first dict is absent from the second. -/
def allFreshB : PObj → PObj → Bool
  | .nil, _ => true
  | .cons k _ tl, acc => (lookupPy k acc).isNone && allFreshB tl acc

theorem pkeyEqB_symm (a b : PKey) : pkeyEqB a b = pkeyEqB b a := by
  cases a <;> cases b <;> simp [pkeyEqB] <;> constructor <;> (intro h; exact h.symm)

theorem oappend_nil (a : PObj) : oappend a .nil = a := by
  cases a with
  | nil => rfl
  | cons k v tl => simp [oappend, oappend_nil tl]

theorem oappend_assoc (a b c : PObj) : oappend (oappend a b) c = oappend a (oappend b c) := by
  cases a with
  | nil => rfl
  | cons k v tl => simp [oappend, oappend_assoc tl b c]

theorem pobjSet_fresh (acc : PObj) (k : PKey) (v : PVal) (h : lookupPy k acc = none) :
    pobjSet acc k v = oappend acc (.cons k v .nil) := by
  cases acc with
  | nil => rfl
  | cons k2 v2 tl =>
      rcases hp : pkeyEqB k2 k with _ | _
      · simp only [lookupPy, hp, Bool.false_eq_true, if_false, ite_false] at h
        simp [pobjSet, oappend, hp, pobjSet_fresh tl k v h]
      · simp [lookupPy, hp] at h

theorem lookupPy_oappend (q : PKey) (a b : PObj) :
    lookupPy q (oappend a b) =
      match lookupPy q a with
      | some x => some x
      | none => lookupPy q b := by
  cases a with
  | nil => simp [oappend, lookupPy]
  | cons k v tl =>
      rcases hp : pkeyEqB k q with _ | _
      · simp [oappend, lookupPy, hp, lookupPy_oappend q tl b]
      · simp [oappend, lookupPy, hp]

theorem allFreshB_nil_acc (o : PObj) : allFreshB o .nil = true := by
  cases o with
  | nil => rfl
  | cons k v tl => simp [allFreshB, lookupPy, allFreshB_nil_acc tl]

theorem allFreshB_oappend_single (tl : PObj) (acc : PObj) (k : PKey) (v : PVal)
    (hf : allFreshB tl acc = true) (hk : lookupPy k tl = none) :
    allFreshB tl (oappend acc (.cons k v .nil)) = true := by
  cases tl with
  | nil => rfl
  | cons q w tl2 =>
      simp only [allFreshB, Bool.and_eq_true, Option.isNone_iff_eq_none] at hf ⊢
      rcases hq : pkeyEqB q k with _ | _
      · simp only [lookupPy, hq, Bool.false_eq_true, if_false, ite_false] at hk
        refine ⟨?_, allFreshB_oappend_single tl2 acc k v hf.2 hk⟩
        rw [lookupPy_oappend]
        rw [hf.1]
        have : pkeyEqB k q = false := by rw [pkeyEqB_symm]; exact hq
        simp [lookupPy, this]
      · simp [lookupPy, hq] at hk

theorem objExtend_oappend (o : PObj) : ∀ acc : PObj, nodupKeysB o = true →
    allFreshB o acc = true → objExtend acc o = oappend acc o := by
  cases o with
  | nil =>
      intro acc _ _
      rw [oappend_nil]
      rfl
  | cons k v tl =>
      intro acc hnd hf
      simp only [nodupKeysB, Bool.and_eq_true, Option.isNone_iff_eq_none] at hnd
      simp only [allFreshB, Bool.and_eq_true, Option.isNone_iff_eq_none] at hf
      have step : objExtend acc (.cons k v tl) = objExtend (pobjSet acc k v) tl := rfl
      rw [step, pobjSet_fresh acc k v hf.1,
        objExtend_oappend tl (oappend acc (.cons k v .nil)) hnd.2
          (allFreshB_oappend_single tl acc k v hf.2 hnd.1),
        oappend_assoc]
      rfl

theorem objExtend_nil (o : PObj) (h : nodupKeysB o = true) : objExtend .nil o = o := by
  rw [objExtend_oappend o .nil h (allFreshB_nil_acc o)]
  rfl

theorem allFreshB_pobjSet (tl : PObj) (acc : PObj) (k : PKey) (v : PVal)
    (hf : allFreshB tl acc = true) (hk : lookupPy k tl = none)
    (hka : lookupPy k acc = none) :
    allFreshB tl (pobjSet acc k v) = true := by
  rw [pobjSet_fresh acc k v hka]
  exact allFreshB_oappend_single tl acc k v hf hk

/-! ## Well-formed values for the round-trip law -/

mutual
/-- A value in the JSON data model proper: every dict has string keys,
no duplicate keys, and well-formed entries.  These are the values on
which serialization is faithfully invertible. -/
def goodStr : PVal → Bool
  | .null => true
  | .bool _ => true
  | .int _ => true
  | .str _ => true
  | .arr xs => goodArr xs
  | .obj kvs => nodupKeysB kvs && goodObj kvs

/-- All list elements are well-formed. -/
def goodArr : PArr → Bool
  | .nil => true
  | .cons x xs => goodStr x && goodArr xs

/-- All entries have a string key and a well-formed value. -/
def goodObj : PObj → Bool
  | .nil => true
  | .cons k v tl =>
      (match k with
       | .str _ => true
       | .int _ => false) && goodStr v && goodObj tl
end

theorem stopOk_startsDigit {rest : List Char} (h : stopOk rest = true) :
    startsDigit rest = false := by
  cases rest with
  | nil => rfl
  | cons c cs =>
      simp only [stopOk, Bool.not_eq_eq_eq_not, Bool.not_true, Bool.or_eq_false_iff] at h
      simp [startsDigit, h.1.1.1]

theorem stopOk_startsFrac {rest : List Char} (h : stopOk rest = true) :
    startsFrac rest = false := by
  cases rest with
  | nil => rfl
  | cons c cs =>
      simp only [stopOk, Bool.not_eq_eq_eq_not, Bool.not_true, Bool.or_eq_false_iff] at h
      simp [startsFrac, h.1.1.2, h.1.2, h.2]

theorem dumpItems_shape (x : PVal) (xs : PArr) (d : Nat) :
    ∃ t, dumpItems x xs d = sp (4 * d) ++ (dumpVal x d ++ t) := by
  cases xs with
  | nil => exact ⟨[], by simp [dumpItems]⟩
  | cons y ys =>
      exact ⟨',' :: '\n' :: dumpItems y ys d, by simp [dumpItems]⟩

theorem dumpEntries_shape (k : PKey) (v : PVal) (tl : PObj) (d : Nat) :
    ∃ z, dumpEntries k v tl d = sp (4 * d) ++ '"' :: z := by
  cases tl with
  | nil =>
      refine ⟨escStr (keyStr k).toList ++ ['"'] ++ ':' :: ' ' :: dumpVal v d, ?_⟩
      simp [dumpEntries, dumpKeyChars]
  | cons k2 v2 tl2 =>
      refine ⟨escStr (keyStr k).toList ++ ['"'] ++ ':' :: ' ' :: dumpVal v d ++
        ',' :: '\n' :: dumpEntries k2 v2 tl2 d, ?_⟩
      simp [dumpEntries, dumpKeyChars]

theorem digit_beq_false {c : Char} (h : isDigitCh c = true) :
    (c == '"') = false ∧ (c == '[') = false ∧ (c == lbrace) = false ∧
      (c == 'n') = false ∧ (c == 't') = false ∧ (c == 'f') = false ∧
      (c == '-') = false := by
  have hr := isDigitCh_toNat h
  refine ⟨?_, ?_, ?_, ?_, ?_, ?_, ?_⟩
  · exact char_beq_false (by have e : ('"').toNat = 34 := rfl; rw [e]; omega)
  · exact char_beq_false (by have e : ('[').toNat = 91 := rfl; rw [e]; omega)
  · exact char_beq_false (by have e : lbrace.toNat = 123 := rfl; rw [e]; omega)
  · exact char_beq_false (by have e : ('n').toNat = 110 := rfl; rw [e]; omega)
  · exact char_beq_false (by have e : ('t').toNat = 116 := rfl; rw [e]; omega)
  · exact char_beq_false (by have e : ('f').toNat = 102 := rfl; rw [e]; omega)
  · exact char_beq_false (by have e : ('-').toNat = 45 := rfl; rw [e]; omega)

theorem wsOnly_nl_sp (n : Nat) : wsOnly ('\n' :: sp n) = true := by
  simp only [wsOnly, Bool.and_eq_true]
  exact ⟨rfl, wsOnly_sp n⟩

theorem skipWs_nl_sp {c : Char} (h : isWs c = false) (n : Nat) (X : List Char) :
    skipWs ('\n' :: (sp n ++ (c :: X))) = c :: X := by
  rw [show ('\n' :: (sp n ++ (c :: X))) = (('\n' :: sp n) ++ (c :: X)) from by simp,
    skipWs_wsOnly (wsOnly_nl_sp n), skipWs_nonWs h]

theorem skipWs_ws_sp {c : Char} (h : isWs c = false) {ws : List Char}
    (hws : wsOnly ws = true) (n : Nat) (X : List Char) :
    skipWs (ws ++ (sp n ++ (c :: X))) = c :: X := by
  rw [show (ws ++ (sp n ++ (c :: X))) = ((ws ++ sp n) ++ (c :: X)) from by simp,
    skipWs_wsOnly (wsOnly_append hws (wsOnly_sp n)), skipWs_nonWs h]

/-- Master round-trip statement, proved by strong induction on a size
bound: serialization followed by parsing is the identity on well-formed
values (and on nonempty serialized array-item and object-entry lists), at
any depth, under any leading whitespace, with enough fuel. -/
theorem parse_dump_master (N : Nat) :
    (∀ v fuel d ws rest, psize v ≤ N → goodStr v = true →
      psize v ≤ fuel → wsOnly ws = true → stopOk rest = true →
      parseVal fuel (ws ++ (dumpVal v d ++ rest)) = some (v, rest)) ∧
    (∀ x xs fuel d m ws rest, psizeArr (.cons x xs) ≤ N →
      goodStr x = true → goodArr xs = true → psizeArr (.cons x xs) ≤ fuel →
      wsOnly ws = true →
      parseArrItems fuel (ws ++ (dumpItems x xs d ++ '\n' :: (sp m ++ ']' :: rest))) =
        some (.cons x xs, rest)) ∧
    (∀ k v tl fuel acc d m ws rest, psizeObj (.cons k v tl) ≤ N →
      goodObj (.cons k v tl) = true → nodupKeysB (.cons k v tl) = true →
      allFreshB (.cons k v tl) acc = true → psizeObj (.cons k v tl) ≤ fuel →
      wsOnly ws = true →
      parseObjItems fuel acc
          (ws ++ (dumpEntries k v tl d ++ '\n' :: (sp m ++ rbrace :: rest))) =
        some (objExtend acc (.cons k v tl), rest)) := by
  induction N using Nat.strong_induction_on with
  | _ N ih =>
  refine ⟨?_, ?_, ?_⟩
  · intro v fuel d ws rest hN hg hfu hws hstop
    cases fuel with
    | zero => exact absurd hfu (by have := psize_pos v; omega)
    | succ f =>
      cases v with
      | null =>
          have hd : dumpVal .null d = ['n', 'u', 'l', 'l'] := by simp [dumpVal]
          rw [hd]
          simp only [parseVal, List.cons_append, List.nil_append]
          rw [skipWs_wsOnly hws, skipWs_nonWs (by decide)]
          rfl
      | bool b =>
          cases b with
          | true =>
              have hd : dumpVal (.bool true) d = ['t', 'r', 'u', 'e'] := by simp [dumpVal]
              rw [hd]
              simp only [parseVal, List.cons_append, List.nil_append]
              rw [skipWs_wsOnly hws, skipWs_nonWs (by decide)]
              rfl
          | false =>
              have hd : dumpVal (.bool false) d = ['f', 'a', 'l', 's', 'e'] := by
                simp [dumpVal]
              rw [hd]
              simp only [parseVal, List.cons_append, List.nil_append]
              rw [skipWs_wsOnly hws, skipWs_nonWs (by decide)]
              rfl
      | int z =>
          by_cases hz : z < 0
          · have hd : dumpVal (.int z) d = '-' :: natDigits z.natAbs := by
              simp [dumpVal, intRepr, hz]
            rw [hd]
            simp only [parseVal, List.cons_append]
            rw [skipWs_wsOnly hws, skipWs_nonWs (by decide)]
            have hrw : parseNatJ (natDigits z.natAbs ++ rest) = some (z.natAbs, rest) :=
              parseNatJ_natDigits _ _ (stopOk_startsDigit hstop)
            simp only [show ('-' == '"') = false from rfl, show ('-' == '[') = false from rfl,
              show ('-' == lbrace) = false from rfl, show ('-' == 'n') = false from rfl,
              show ('-' == 't') = false from rfl, show ('-' == 'f') = false from rfl,
              show ('-' == '-') = true from rfl, Bool.false_eq_true, if_false, if_true,
              ite_true, ite_false]
            rw [hrw]
            simp only [Option.bind_eq_bind, Option.some_bind, stopOk_startsFrac hstop,
              Bool.false_eq_true, if_false, ite_false]
            have hv : (-(z.natAbs : Int)) = z := by omega
            rw [hv]
          · obtain ⟨c, cs, hc, hdg⟩ := natDigits_head_digit z.toNat
            obtain ⟨b1, b2, b3, b4, b5, b6, b7⟩ := digit_beq_false hdg
            have hd : dumpVal (.int z) d = c :: cs := by
              simp [dumpVal, intRepr, hz, hc]
            rw [hd]
            simp only [parseVal, List.cons_append]
            rw [skipWs_wsOnly hws, skipWs_nonWs (isWs_of_digit hdg)]
            have hfold : c :: (cs ++ rest) = natDigits z.toNat ++ rest := by
              rw [hc]
              rfl
            have hrw : parseNatJ (c :: (cs ++ rest)) = some (z.toNat, rest) := by
              rw [hfold]
              exact parseNatJ_natDigits _ _ (stopOk_startsDigit hstop)
            simp only [b1, b2, b3, b4, b5, b6, b7, Bool.false_eq_true, if_false, ite_false]
            rw [hrw]
            simp only [Option.bind_eq_bind, Option.some_bind, stopOk_startsFrac hstop,
              Bool.false_eq_true, if_false, ite_false]
            have hv : ((z.toNat : Int)) = z := by omega
            rw [hv]
      | str s =>
          have hd : dumpVal (.str s) d = '"' :: (escStr s.toList ++ ['"']) := by
            simp [dumpVal]
          rw [hd]
          simp only [parseVal, List.cons_append, List.append_assoc, List.nil_append]
          rw [skipWs_wsOnly hws, skipWs_nonWs (by decide)]
          simp only [show ('"' == '"') = true from rfl, if_true, ite_true]
          rw [parseStrBody_escStr s.toList rest]
          rfl
      | arr xs =>
          cases xs with
          | nil =>
              have hd : dumpVal (.arr .nil) d = ['[', ']'] := by simp [dumpVal]
              rw [hd]
              simp only [parseVal, List.cons_append, List.nil_append]
              rw [skipWs_wsOnly hws, skipWs_nonWs (by decide)]
              simp only [show ('[' == '"') = false from rfl, Bool.false_eq_true, if_false,
                ite_false, show ('[' == '[') = true from rfl, if_true, ite_true]
              rw [skipWs_nonWs (by decide)]
              rfl
          | cons x xs2 =>
              have hg2 : goodStr x = true ∧ goodArr xs2 = true := by
                simp only [goodStr, goodArr, Bool.and_eq_true] at hg
                exact hg
              have hd : dumpVal (.arr (.cons x xs2)) d =
                  '[' :: '\n' :: (dumpItems x xs2 (d + 1) ++
                    '\n' :: (sp (4 * d) ++ [']'])) := by
                simp [dumpVal]
              rw [hd]
              simp only [parseVal, List.cons_append, List.append_assoc, List.nil_append]
              rw [skipWs_wsOnly hws, skipWs_nonWs (by decide)]
              simp only [show ('[' == '"') = false from rfl, Bool.false_eq_true, if_false,
                ite_false, show ('[' == '[') = true from rfl, if_true, ite_true]
              obtain ⟨t, hit⟩ := dumpItems_shape x xs2 (d + 1)
              obtain ⟨c0, cs0, hc0, hnws, hnbr, hnrb⟩ := dumpVal_head x (d + 1)
              have hitems := (ih (psizeArr (.cons x xs2))
                  (by simp [psize] at hN; omega)).2.1 x xs2 f (d + 1) (4 * d) ['\n'] rest
                (le_refl _) hg2.1 hg2.2 (by simp [psize] at hfu; omega) (by decide)
              simp only [List.cons_append, List.nil_append, List.append_assoc] at hitems
              rw [hit, hc0] at hitems ⊢
              simp only [List.cons_append, List.nil_append, List.append_assoc] at hitems ⊢
              rw [skipWs_nl_sp hnws]
              simp only [hnbr, Bool.false_eq_true, if_false, ite_false]
              rw [hitems]
              rfl
      | obj kvs =>
          cases kvs with
          | nil =>
              have hd : dumpVal (.obj .nil) d = [lbrace, rbrace] := by simp [dumpVal]
              rw [hd]
              simp only [parseVal, List.cons_append, List.nil_append]
              rw [skipWs_wsOnly hws, skipWs_nonWs (by decide)]
              simp only [show (lbrace == '"') = false from rfl, Bool.false_eq_true,
                if_false, ite_false, show (lbrace == '[') = false from rfl,
                show (lbrace == lbrace) = true from rfl, if_true, ite_true]
              rw [skipWs_nonWs (by decide)]
              rfl
          | cons k v2 tl =>
              have hsplit : nodupKeysB (.cons k v2 tl) = true ∧
                  goodObj (.cons k v2 tl) = true := by
                simp only [goodStr, Bool.and_eq_true] at hg
                exact hg
              have hd : dumpVal (.obj (.cons k v2 tl)) d =
                  lbrace :: '\n' :: (dumpEntries k v2 tl (d + 1) ++
                    '\n' :: (sp (4 * d) ++ [rbrace])) := by
                simp [dumpVal]
              rw [hd]
              simp only [parseVal, List.cons_append, List.append_assoc, List.nil_append]
              rw [skipWs_wsOnly hws, skipWs_nonWs (by decide)]
              simp only [show (lbrace == '"') = false from rfl, Bool.false_eq_true,
                if_false, ite_false, show (lbrace == '[') = false from rfl,
                show (lbrace == lbrace) = true from rfl, if_true, ite_true]
              obtain ⟨z, hz⟩ := dumpEntries_shape k v2 tl (d + 1)
              have hentries := (ih (psizeObj (.cons k v2 tl))
                  (by simp [psize] at hN; omega)).2.2 k v2 tl f .nil (d + 1) (4 * d)
                ['\n'] rest (le_refl _) hsplit.2 hsplit.1 (allFreshB_nil_acc _)
                (by simp [psize] at hfu; omega) (by decide)
              simp only [List.cons_append, List.nil_append, List.append_assoc] at hentries
              rw [hz] at hentries ⊢
              simp only [List.cons_append, List.nil_append, List.append_assoc] at hentries ⊢
              rw [skipWs_nl_sp (by decide)]
              simp only [show ('"' == rbrace) = false from rfl, Bool.false_eq_true,
                if_false, ite_false]
              rw [hentries, objExtend_nil _ hsplit.1]
              rfl
  · intro x xs fuel d m ws rest hN hgx hgxs hfu hws
    cases fuel with
    | zero => exact absurd hfu (by simp [psizeArr])
    | succ f =>
      cases xs with
      | nil =>
          have hd : dumpItems x .nil d = sp (4 * d) ++ dumpVal x d := by simp [dumpItems]
          rw [hd]
          simp only [parseArrItems, List.append_assoc, List.cons_append, List.nil_append]
          have hval := (ih (psize x) (by simp [psizeArr] at hN; omega)).1 x f d
            (ws ++ sp (4 * d)) ('\n' :: (sp m ++ (']' :: rest))) (le_refl _) hgx
            (by simp [psizeArr] at hfu; omega)
            (wsOnly_append hws (wsOnly_sp _)) rfl
          simp only [List.cons_append, List.nil_append, List.append_assoc] at hval
          rw [hval]
          simp only [Option.bind_eq_bind, Option.some_bind]
          rw [skipWs_nl_sp (by decide)]
          rfl
      | cons y ys =>
          have hgy : goodStr y = true ∧ goodArr ys = true := by
            simp only [goodArr, Bool.and_eq_true] at hgxs
            exact hgxs
          have hd : dumpItems x (.cons y ys) d =
              sp (4 * d) ++ dumpVal x d ++ ',' :: '\n' :: dumpItems y ys d := by
            simp [dumpItems]
          rw [hd]
          simp only [parseArrItems, List.append_assoc, List.cons_append, List.nil_append]
          have hval := (ih (psize x) (by simp [psizeArr] at hN; omega)).1 x f d
            (ws ++ sp (4 * d))
            (',' :: '\n' :: (dumpItems y ys d ++ ('\n' :: (sp m ++ (']' :: rest)))))
            (le_refl _) hgx (by simp [psizeArr] at hfu; omega)
            (wsOnly_append hws (wsOnly_sp _)) rfl
          simp only [List.cons_append, List.nil_append, List.append_assoc] at hval
          rw [hval]
          simp only [Option.bind_eq_bind, Option.some_bind]
          rw [skipWs_nonWs (by decide)]
          simp only [show (',' == ',') = true from rfl, if_true, ite_true]
          have hrec := (ih (psizeArr (.cons y ys))
              (by simp [psizeArr] at hN ⊢; omega)).2.1 y ys f d m ['\n'] rest
            (le_refl _) hgy.1 hgy.2 (by simp [psizeArr] at hfu ⊢; omega) (by decide)
          simp only [List.cons_append, List.nil_append, List.append_assoc] at hrec
          rw [hrec]
          rfl
  · intro k v tl fuel acc d m ws rest hN hgo hnd hf hfu hws
    cases fuel with
    | zero => exact absurd hfu (by simp [psizeObj])
    | succ f =>
      cases k with
      | int z => simp [goodObj] at hgo
      | str s =>
        have hgv : goodStr v = true ∧ goodObj tl = true := by
          simp only [goodObj, Bool.and_eq_true] at hgo
          exact ⟨hgo.1.2, hgo.2⟩
        have hndc : lookupPy (.str s) tl = none ∧ nodupKeysB tl = true := by
          simp only [nodupKeysB, Bool.and_eq_true, Option.isNone_iff_eq_none] at hnd
          exact hnd
        have hfc : lookupPy (.str s) acc = none ∧ allFreshB tl acc = true := by
          simp only [allFreshB, Bool.and_eq_true, Option.isNone_iff_eq_none] at hf
          exact hf
        cases tl with
        | nil =>
            have hd : dumpEntries (.str s) v .nil d =
                sp (4 * d) ++ ('"' :: (escStr s.toList ++
                  ('"' :: ':' :: ' ' :: dumpVal v d))) := by
              simp [dumpEntries, dumpKeyChars, keyStr]
            rw [hd]
            simp only [parseObjItems, List.append_assoc, List.cons_append, List.nil_append]
            rw [skipWs_ws_sp (by decide) hws]
            simp only [show ('"' == '"') = true from rfl, if_true, ite_true]
            rw [parseStrBody_escStr s.toList]
            simp only [Option.bind_eq_bind, Option.some_bind]
            rw [skipWs_nonWs (by decide)]
            simp only [show (':' == ':') = true from rfl, if_true, ite_true]
            have hval := (ih (psize v) (by simp [psizeObj] at hN; omega)).1 v f d [' ']
              ('\n' :: (sp m ++ (rbrace :: rest))) (le_refl _) hgv.1
              (by simp [psizeObj] at hfu; omega) (by decide) rfl
            simp only [List.cons_append, List.nil_append, List.append_assoc] at hval
            rw [hval]
            simp only [Option.bind_eq_bind, Option.some_bind]
            rw [skipWs_nl_sp (by decide)]
            simp only [show (rbrace == ',') = false from rfl, Bool.false_eq_true,
              if_false, ite_false, show (rbrace == rbrace) = true from rfl, if_true,
              ite_true]
            rfl
        | cons k2 v2 tl2 =>
            have hd : dumpEntries (.str s) v (.cons k2 v2 tl2) d =
                sp (4 * d) ++ ('"' :: (escStr s.toList ++
                  ('"' :: ':' :: ' ' :: (dumpVal v d ++
                    (',' :: '\n' :: dumpEntries k2 v2 tl2 d))))) := by
              simp [dumpEntries, dumpKeyChars, keyStr]
            rw [hd]
            simp only [parseObjItems, List.append_assoc, List.cons_append, List.nil_append]
            rw [skipWs_ws_sp (by decide) hws]
            simp only [show ('"' == '"') = true from rfl, if_true, ite_true]
            rw [parseStrBody_escStr s.toList]
            simp only [Option.bind_eq_bind, Option.some_bind]
            rw [skipWs_nonWs (by decide)]
            simp only [show (':' == ':') = true from rfl, if_true, ite_true]
            have hval := (ih (psize v) (by simp [psizeObj] at hN; omega)).1 v f d [' ']
              (',' :: '\n' :: (dumpEntries k2 v2 tl2 d ++
                ('\n' :: (sp m ++ (rbrace :: rest))))) (le_refl _) hgv.1
              (by simp [psizeObj] at hfu; omega) (by decide) rfl
            simp only [List.cons_append, List.nil_append, List.append_assoc] at hval
            rw [hval]
            simp only [Option.bind_eq_bind, Option.some_bind]
            rw [skipWs_nonWs (by decide)]
            simp only [show (',' == ',') = true from rfl, if_true, ite_true]
            have hfresh2 : allFreshB (.cons k2 v2 tl2)
                (pobjSet acc (.str s) v) = true :=
              allFreshB_pobjSet _ acc (.str s) v hfc.2 hndc.1 hfc.1
            have hrec := (ih (psizeObj (.cons k2 v2 tl2))
                (by simp [psizeObj] at hN ⊢; omega)).2.2 k2 v2 tl2 f
              (pobjSet acc (.str s) v) d m ['\n'] rest (le_refl _) hgv.2 hndc.2 hfresh2
              (by simp [psizeObj] at hfu ⊢; omega) (by decide)
            simp only [List.cons_append, List.nil_append, List.append_assoc] at hrec
            rw [show String.mk s.toList = s from rfl]
            rw [hrec]
            rfl

/-- Round trip at the value level: parsing the serialization of a
well-formed value returns the value, with whatever fuel suffices. -/
theorem parse_dump_val (v : PVal) (fuel d : Nat) (ws rest : List Char)
    (hg : goodStr v = true) (hfu : psize v ≤ fuel) (hws : wsOnly ws = true)
    (hstop : stopOk rest = true) :
    parseVal fuel (ws ++ (dumpVal v d ++ rest)) = some (v, rest) :=
  (parse_dump_master (psize v)).1 v fuel d ws rest (le_refl _) hg hfu hws hstop

/-! ## Python deep equality -/

/-- Number of entries of a dict. -/
def objLen : PObj → Nat
  | .nil => 0
  | .cons _ _ tl => 1 + objLen tl

mutual
/-- Python `==` on the modelled values: numbers compare numerically
(`True == 1`), lists element-wise, dicts as finite maps (same size, every
key of the first present in the second with an equal value); values of
different kinds are unequal. -/
def pyEq : PVal → PVal → Bool
  | .null, .null => true
  | .bool a, .bool b => a == b
  | .bool a, .int b => (if a then (1 : Int) else 0) == b
  | .int a, .bool b => a == (if b then (1 : Int) else 0)
  | .int a, .int b => a == b
  | .str a, .str b => a == b
  | .arr a, .arr b => pyEqArr a b
  | .obj a, .obj b => objLen a == objLen b && pyEqObjSub a b
  | _, _ => false

/-- Element-wise equality of lists. -/
def pyEqArr : PArr → PArr → Bool
  | .nil, .nil => true
  | .cons x xs, .cons y ys => pyEq x y && pyEqArr xs ys
  | _, _ => false

/-- Every entry of the first dict is present, with an equal value, in the
second. -/
def pyEqObjSub : PObj → PObj → Bool
  | .nil, _ => true
  | .cons k v tl, b =>
      (match lookupPy k b with
       | some w => pyEq v w
       | none => false) && pyEqObjSub tl b
end

/-! ## Sorting dict entries by key, as `sort_keys=True` does -/

/-- Python `<` on dict keys: defined within one type, a `TypeError`
(modelled as `none`) across types. -/
def pkeyLtO : PKey → PKey → Option Bool
  | .str a, .str b => some (decide (a < b))
  | .int a, .int b => some (decide (a < b))
  | _, _ => none

/-- Insert an entry into a sorted entry list, keeping order by key. -/
def insertSortedO (k : PKey) (v : PVal) : PObj → Option PObj
  | .nil => some (.cons k v .nil)
  | .cons k2 v2 tl =>
      match pkeyLtO k k2 with
      | none => none
      | some true => some (.cons k v (.cons k2 v2 tl))
      | some false => (insertSortedO k v tl).map (.cons k2 v2)

/-- Sort the entries of a dict by key (insertion sort); fails when keys
are incomparable, as Python's `sorted` raises. -/
def sortObjO : PObj → Option PObj
  | .nil => some .nil
  | .cons k v tl => (sortObjO tl).bind (insertSortedO k v)

mutual
/-- Recursively sort every dict of a value by key, which is exactly the
reordering `json.dump(..., sort_keys=True)` applies before serializing;
fails where Python's `sorted` would raise on incomparable keys. -/
def canonSort : PVal → Option PVal
  | .null => some .null
  | .bool b => some (.bool b)
  | .int z => some (.int z)
  | .str s => some (.str s)
  | .arr xs => (canonArr xs).map .arr
  | .obj kvs => (canonObj kvs).bind (fun l => (sortObjO l).map .obj)

/-- Canonicalize every element. -/
def canonArr : PArr → Option PArr
  | .nil => some .nil
  | .cons x xs => (canonSort x).bind (fun cx => (canonArr xs).map (.cons cx))

/-- Canonicalize every value, keys untouched. -/
def canonObj : PObj → Option PObj
  | .nil => some .nil
  | .cons k v tl => (canonSort v).bind (fun cv => (canonObj tl).map (.cons k cv))
end

/-- Keys of a dict in order. -/
def okeys : PObj → List PKey
  | .nil => []
  | .cons k _ tl => k :: okeys tl

theorem pkeyEqB_eq {a b : PKey} : pkeyEqB a b = true ↔ a = b := by
  cases a <;> cases b <;> simp [pkeyEqB]

theorem pkeyEqB_refl (a : PKey) : pkeyEqB a a = true := pkeyEqB_eq.mpr rfl

theorem isNone_lookup_of_keys_eq {A B : PObj} (h : okeys A = okeys B) (q : PKey) :
    (lookupPy q A).isNone = (lookupPy q B).isNone := by
  cases A with
  | nil =>
      cases B with
      | nil => rfl
      | cons k v tl => simp [okeys] at h
  | cons k v tl =>
      cases B with
      | nil => simp [okeys] at h
      | cons k2 v2 tl2 =>
          simp only [okeys, List.cons.injEq] at h
          rcases hp : pkeyEqB k q with _ | _
          · have hp2 : pkeyEqB k2 q = false := by rw [← h.1]; exact hp
            simp only [lookupPy, hp, hp2, Bool.false_eq_true, if_false, ite_false]
            exact isNone_lookup_of_keys_eq h.2 q
          · have hp2 : pkeyEqB k2 q = true := by rw [← h.1]; exact hp
            simp [lookupPy, hp, hp2]

theorem nodup_of_keys_eq {A B : PObj} (h : okeys A = okeys B) :
    nodupKeysB A = nodupKeysB B := by
  cases A with
  | nil =>
      cases B with
      | nil => rfl
      | cons k v tl => simp [okeys] at h
  | cons k v tl =>
      cases B with
      | nil => simp [okeys] at h
      | cons k2 v2 tl2 =>
          simp only [okeys, List.cons.injEq] at h
          simp only [nodupKeysB]
          rw [nodup_of_keys_eq h.2, ← h.1, isNone_lookup_of_keys_eq h.2 k]

theorem insertSortedO_strKeys (k : PKey) (v : PVal) (l : PObj) (sk : String)
    (hk : k = .str sk) (hl : ∀ q ∈ okeys l, ∃ sq, q = .str sq) :
    ∃ l', insertSortedO k v l = some l' := by
  cases l with
  | nil => exact ⟨.cons k v .nil, rfl⟩
  | cons k2 v2 tl =>
      obtain ⟨s2, hs2⟩ := hl k2 (by simp [okeys])
      subst hk
      subst hs2
      rcases hlt : pkeyLtO (.str sk) (.str s2) with _ | b
      · simp [pkeyLtO] at hlt
      · cases b with
        | true =>
            exact ⟨.cons (.str sk) v (.cons (.str s2) v2 tl), by simp [insertSortedO, hlt]⟩
        | false =>
            obtain ⟨l', hl'⟩ := insertSortedO_strKeys (.str sk) v tl sk rfl
              (fun q hq => hl q (by simp [okeys, hq]))
            exact ⟨.cons (.str s2) v2 l', by simp [insertSortedO, hlt, hl']⟩

theorem insertSortedO_len (k : PKey) (v : PVal) (l : PObj) (l' : PObj)
    (h : insertSortedO k v l = some l') : objLen l' = objLen l + 1 := by
  cases l with
  | nil =>
      simp only [insertSortedO, Option.some.injEq] at h
      subst h
      simp [objLen]
  | cons k2 v2 tl =>
      simp only [insertSortedO] at h
      rcases hlt : pkeyLtO k k2 with _ | b <;> rw [hlt] at h
      · cases h
      · cases b with
        | true =>
            simp only [Option.some.injEq] at h
            subst h
            simp [objLen]
            omega
        | false =>
            rcases hrec : insertSortedO k v tl with _ | l2 <;> rw [hrec] at h
            · cases h
            · simp only [Option.map_some', Option.some.injEq] at h
              subst h
              have := insertSortedO_len k v tl l2 hrec
              simp [objLen, this]
              omega

theorem insertSortedO_lookup (k : PKey) (v : PVal) (l : PObj) (l' : PObj)
    (h : insertSortedO k v l = some l') (hk : lookupPy k l = none) (q : PKey) :
    lookupPy q l' = if pkeyEqB k q then some v else lookupPy q l := by
  cases l with
  | nil =>
      simp only [insertSortedO, Option.some.injEq] at h
      subst h
      simp [lookupPy]
  | cons k2 v2 tl =>
      have hk2 : pkeyEqB k2 k = false ∧ lookupPy k tl = none := by
        rcases hp : pkeyEqB k2 k with _ | _
        · simp only [lookupPy, hp, Bool.false_eq_true, if_false, ite_false] at hk
          exact ⟨rfl, hk⟩
        · simp [lookupPy, hp] at hk
      simp only [insertSortedO] at h
      rcases hlt : pkeyLtO k k2 with _ | b <;> rw [hlt] at h
      · cases h
      · cases b with
        | true =>
            simp only [Option.some.injEq] at h
            subst h
            rcases hq : pkeyEqB k q with _ | _
            · simp [lookupPy, hq]
            · simp [lookupPy, hq]
        | false =>
            rcases hrec : insertSortedO k v tl with _ | l2 <;> rw [hrec] at h
            · cases h
            · simp only [Option.map_some', Option.some.injEq] at h
              subst h
              have ihl := insertSortedO_lookup k v tl l2 hrec hk2.2 q
              rcases hq : pkeyEqB k q with _ | _
              · simp only [hq, Bool.false_eq_true, if_false, ite_false] at ihl
                simp [lookupPy, ihl]
              · have hkq : k = q := pkeyEqB_eq.mp hq
                subst hkq
                simp only [hq, if_true, ite_true] at ihl
                simp [lookupPy, hk2.1, ihl]

theorem insertSortedO_nodup (k : PKey) (v : PVal) (l : PObj) (l' : PObj)
    (h : insertSortedO k v l = some l') (hk : lookupPy k l = none)
    (hnd : nodupKeysB l = true) : nodupKeysB l' = true := by
  cases l with
  | nil =>
      simp only [insertSortedO, Option.some.injEq] at h
      subst h
      simp [nodupKeysB, lookupPy]
  | cons k2 v2 tl =>
      have hk2 : pkeyEqB k2 k = false ∧ lookupPy k tl = none := by
        rcases hp : pkeyEqB k2 k with _ | _
        · simp only [lookupPy, hp, Bool.false_eq_true, if_false, ite_false] at hk
          exact ⟨rfl, hk⟩
        · simp [lookupPy, hp] at hk
      simp only [nodupKeysB, Bool.and_eq_true, Option.isNone_iff_eq_none] at hnd
      simp only [insertSortedO] at h
      rcases hlt : pkeyLtO k k2 with _ | b <;> rw [hlt] at h
      · cases h
      · cases b with
        | true =>
            simp only [Option.some.injEq] at h
            subst h
            simp only [nodupKeysB, Bool.and_eq_true, Option.isNone_iff_eq_none]
            refine ⟨?_, hnd.1, hnd.2⟩
            simp [lookupPy, hk2.1, hk2.2]
        | false =>
            rcases hrec : insertSortedO k v tl with _ | l2 <;> rw [hrec] at h
            · cases h
            · simp only [Option.map_some', Option.some.injEq] at h
              subst h
              simp only [nodupKeysB, Bool.and_eq_true, Option.isNone_iff_eq_none]
              refine ⟨?_, insertSortedO_nodup k v tl l2 hrec hk2.2 hnd.2⟩
              rw [insertSortedO_lookup k v tl l2 hrec hk2.2 k2]
              have : pkeyEqB k k2 = false := by rw [pkeyEqB_symm]; exact hk2.1
              simp [this, hnd.1]

theorem insertSortedO_goodObj (k : PKey) (v : PVal) (l : PObj) (l' : PObj)
    (h : insertSortedO k v l = some l') (sk : String) (hks : k = .str sk)
    (hgv : goodStr v = true) (hgl : goodObj l = true) : goodObj l' = true := by
  cases l with
  | nil =>
      simp only [insertSortedO, Option.some.injEq] at h
      subst h
      subst hks
      simp [goodObj, hgv]
  | cons k2 v2 tl =>
      simp only [goodObj, Bool.and_eq_true] at hgl
      simp only [insertSortedO] at h
      rcases hlt : pkeyLtO k k2 with _ | b <;> rw [hlt] at h
      · cases h
      · cases b with
        | true =>
            simp only [Option.some.injEq] at h
            subst h
            subst hks
            simp only [goodObj, Bool.and_eq_true]
            exact ⟨⟨by trivial, hgv⟩, hgl⟩
        | false =>
            rcases hrec : insertSortedO k v tl with _ | l2 <;> rw [hrec] at h
            · cases h
            · simp only [Option.map_some', Option.some.injEq] at h
              subst h
              simp only [goodObj, Bool.and_eq_true]
              exact ⟨hgl.1, insertSortedO_goodObj k v tl l2 hrec sk hks hgv hgl.2⟩

theorem okeys_str_of_goodObj {l : PObj} (hg : goodObj l = true) :
    ∀ q ∈ okeys l, ∃ sq, q = PKey.str sq := by
  cases l with
  | nil => intro q hq; simp [okeys] at hq
  | cons k v tl =>
      simp only [goodObj, Bool.and_eq_true] at hg
      intro q hq
      simp only [okeys, List.mem_cons] at hq
      rcases hq with rfl | hq
      · cases q with
        | str s => exact ⟨s, rfl⟩
        | int z => simp at hg
      · exact okeys_str_of_goodObj hg.2 q hq

theorem objLen_okeys (l : PObj) : objLen l = (okeys l).length := by
  cases l with
  | nil => rfl
  | cons k v tl =>
      simp [objLen, okeys, objLen_okeys tl]
      omega

theorem sortObjO_good (l : PObj) (hg : goodObj l = true) (hnd : nodupKeysB l = true) :
    ∃ l', sortObjO l = some l' ∧ goodObj l' = true ∧ nodupKeysB l' = true ∧
      objLen l' = objLen l ∧ ∀ q, lookupPy q l' = lookupPy q l := by
  cases l with
  | nil => exact ⟨.nil, rfl, rfl, rfl, rfl, fun q => rfl⟩
  | cons k v tl =>
      simp only [goodObj, Bool.and_eq_true] at hg
      simp only [nodupKeysB, Bool.and_eq_true, Option.isNone_iff_eq_none] at hnd
      obtain ⟨tl', hs, hgtl', hndtl', hlen', hlook'⟩ := sortObjO_good tl hg.2 hnd.2
      obtain ⟨sk, hsk⟩ : ∃ sq, k = PKey.str sq := by
        cases k with
        | str s => exact ⟨s, rfl⟩
        | int z => simp at hg
      have hktl' : lookupPy k tl' = none := by rw [hlook' k]; exact hnd.1
      obtain ⟨l', hins⟩ := insertSortedO_strKeys k v tl' sk hsk
        (okeys_str_of_goodObj hgtl')
      refine ⟨l', by simp [sortObjO, hs, hins], ?_, ?_, ?_, ?_⟩
      · exact insertSortedO_goodObj k v tl' l' hins sk hsk hg.1.2 hgtl'
      · exact insertSortedO_nodup k v tl' l' hins hktl' hndtl'
      · rw [insertSortedO_len k v tl' l' hins, hlen']
        simp [objLen]
        omega
      · intro q
        rw [insertSortedO_lookup k v tl' l' hins hktl' q, hlook' q]
        rcases hq : pkeyEqB k q with _ | _ <;> simp [lookupPy, hq]

theorem pyEqObjSub_of (S B : PObj) (hnd : nodupKeysB S = true)
    (hyp : ∀ q cv, lookupPy q S = some cv →
      ∃ w, lookupPy q B = some w ∧ pyEq cv w = true) :
    pyEqObjSub S B = true := by
  cases S with
  | nil => rfl
  | cons k v tl =>
      simp only [nodupKeysB, Bool.and_eq_true, Option.isNone_iff_eq_none] at hnd
      obtain ⟨w, hw, hpe⟩ := hyp k v (by simp [lookupPy, pkeyEqB_refl])
      simp only [pyEqObjSub, hw, Bool.and_eq_true]
      refine ⟨hpe, pyEqObjSub_of tl B hnd.2 ?_⟩
      intro q cv hq
      refine hyp q cv ?_
      have hkq : pkeyEqB k q = false := by
        rcases hp : pkeyEqB k q with _ | _
        · rfl
        · exfalso
          have := pkeyEqB_eq.mp hp
          subst this
          rw [hnd.1] at hq
          cases hq
      simp [lookupPy, hkq, hq]

mutual
/-- Canonicalization succeeds on well-formed values and produces a
well-formed value deeply equal (Python `==`) to the original. -/
theorem canon_good (v : PVal) (hg : goodStr v = true) :
    ∃ u, canonSort v = some u ∧ goodStr u = true ∧ pyEq u v = true := by
  cases v with
  | null => exact ⟨.null, rfl, rfl, rfl⟩
  | bool b => exact ⟨.bool b, rfl, rfl, by simp [pyEq]⟩
  | int z => exact ⟨.int z, rfl, rfl, by simp [pyEq]⟩
  | str s => exact ⟨.str s, rfl, rfl, by simp [pyEq]⟩
  | arr xs =>
      have hga : goodArr xs = true := by simpa [goodStr] using hg
      obtain ⟨us, hus, hgus, hpe⟩ := canonArr_good xs hga
      exact ⟨.arr us, by simp [canonSort, hus], by simpa [goodStr] using hgus,
        by simpa [pyEq] using hpe⟩
  | obj kvs =>
      have hsplit : nodupKeysB kvs = true ∧ goodObj kvs = true := by
        simpa [goodStr, Bool.and_eq_true] using hg
      obtain ⟨A, hA, hgA, hkeys, hlook⟩ := canonObj_good kvs hsplit.2
      have hndA : nodupKeysB A = true := by
        rw [nodup_of_keys_eq hkeys]
        exact hsplit.1
      obtain ⟨S, hS, hgS, hndS, hlenS, hlookS⟩ := sortObjO_good A hgA hndA
      refine ⟨.obj S, by simp [canonSort, hA, hS], ?_, ?_⟩
      · simp [goodStr, hndS, hgS]
      · have hlen : objLen S = objLen kvs := by
          rw [hlenS, objLen_okeys, objLen_okeys, hkeys]
        have hsub : pyEqObjSub S kvs = true := by
          refine pyEqObjSub_of S kvs hndS ?_
          intro q cv hq
          rw [hlookS q] at hq
          exact hlook q cv hq
        simp [pyEq, hlen, hsub]

/-- Canonicalization of list elements. -/
theorem canonArr_good (xs : PArr) (hg : goodArr xs = true) :
    ∃ us, canonArr xs = some us ∧ goodArr us = true ∧ pyEqArr us xs = true := by
  cases xs with
  | nil => exact ⟨.nil, rfl, rfl, rfl⟩
  | cons x tl =>
      have hsplit : goodStr x = true ∧ goodArr tl = true := by
        simpa [goodArr, Bool.and_eq_true] using hg
      obtain ⟨cx, hcx, hgcx, hpex⟩ := canon_good x hsplit.1
      obtain ⟨ctl, hctl, hgctl, hpetl⟩ := canonArr_good tl hsplit.2
      exact ⟨.cons cx ctl, by simp [canonArr, hcx, hctl],
        by simp [goodArr, hgcx, hgctl], by simp [pyEqArr, hpex, hpetl]⟩

/-- Canonicalization of dict values, keys untouched; lookups correspond
up to canonicalization. -/
theorem canonObj_good (kvs : PObj) (hg : goodObj kvs = true) :
    ∃ A, canonObj kvs = some A ∧ goodObj A = true ∧ okeys A = okeys kvs ∧
      ∀ q cv, lookupPy q A = some cv →
        ∃ w, lookupPy q kvs = some w ∧ pyEq cv w = true := by
  cases kvs with
  | nil => exact ⟨.nil, rfl, rfl, rfl, by intro q cv hq; simp [lookupPy] at hq⟩
  | cons k v tl =>
      cases k with
      | int z => simp [goodObj] at hg
      | str sk =>
          have hsplit : goodStr v = true ∧ goodObj tl = true := by
            simpa [goodObj, Bool.and_eq_true] using hg
          obtain ⟨cv, hcv, hgcv, hpecv⟩ := canon_good v hsplit.1
          obtain ⟨A0, hA0, hgA0, hkeys0, hlook0⟩ := canonObj_good tl hsplit.2
          refine ⟨.cons (.str sk) cv A0, by simp [canonObj, hcv, hA0], ?_, ?_, ?_⟩
          · simp [goodObj, hgcv, hgA0]
          · simp [okeys, hkeys0]
          · intro q cv2 hq
            rcases hp : pkeyEqB (.str sk) q with _ | _
            · simp only [lookupPy, hp, Bool.false_eq_true, if_false, ite_false] at hq
              obtain ⟨w, hw, hpe⟩ := hlook0 q cv2 hq
              exact ⟨w, by simp [lookupPy, hp, hw], hpe⟩
            · simp only [lookupPy, hp, if_true, ite_true, Option.some.injEq] at hq
              subst hq
              exact ⟨v, by simp [lookupPy, hp], hpecv⟩
end

/-- Size is bounded by serialized length, so the parser fuel chosen from
the document length always suffices. -/
theorem dumpLen_master (N : Nat) :
    (∀ v, psize v ≤ N → ∀ d, psize v ≤ (dumpVal v d).length) ∧
    (∀ x xs, psizeArr (.cons x xs) ≤ N → ∀ d,
      psizeArr (.cons x xs) ≤ (dumpItems x xs d).length + 1) ∧
    (∀ k v tl, psizeObj (.cons k v tl) ≤ N → ∀ d,
      psizeObj (.cons k v tl) ≤ (dumpEntries k v tl d).length + 1) := by
  induction N using Nat.strong_induction_on with
  | _ N ih =>
  refine ⟨?_, ?_, ?_⟩
  · intro v hN d
    cases v with
    | null => simp [dumpVal, psize]
    | bool b => cases b <;> simp [dumpVal, psize]
    | int z =>
        have h1 : 1 ≤ (intRepr z).length := by
          unfold intRepr
          split
          · simp
          · rcases natDigits_head_digit z.toNat with ⟨c, cs, hc, _⟩
            simp [hc]
        have hd : dumpVal (.int z) d = intRepr z := by simp [dumpVal]
        rw [hd]
        simp [psize]
        omega
    | str s =>
        have hd : dumpVal (.str s) d = '"' :: escStr s.toList ++ ['"'] := by simp [dumpVal]
        rw [hd]
        simp [psize]
    | arr xs =>
        cases xs with
        | nil => simp [dumpVal, psize, psizeArr]
        | cons x xs2 =>
            have hit := (ih (psizeArr (.cons x xs2)) (by simp [psize] at hN ⊢; omega)).2.1
              x xs2 (le_refl _) (d + 1)
            have hd : dumpVal (.arr (.cons x xs2)) d =
                '[' :: '\n' :: (dumpItems x xs2 (d + 1) ++
                  '\n' :: (sp (4 * d) ++ [']'])) := by simp [dumpVal]
            rw [hd]
            simp only [psize, List.length_cons, List.length_append]
            omega
    | obj kvs =>
        cases kvs with
        | nil => simp [dumpVal, psize, psizeObj]
        | cons k v2 tl =>
            have hit := (ih (psizeObj (.cons k v2 tl)) (by simp [psize] at hN ⊢; omega)).2.2
              k v2 tl (le_refl _) (d + 1)
            have hd : dumpVal (.obj (.cons k v2 tl)) d =
                lbrace :: '\n' :: (dumpEntries k v2 tl (d + 1) ++
                  '\n' :: (sp (4 * d) ++ [rbrace])) := by simp [dumpVal]
            rw [hd]
            simp only [psize, List.length_cons, List.length_append]
            omega
  · intro x xs hN d
    cases xs with
    | nil =>
        have hv := (ih (psize x) (by simp [psizeArr] at hN ⊢; omega)).1 x (le_refl _) d
        have hd : dumpItems x .nil d = sp (4 * d) ++ dumpVal x d := by simp [dumpItems]
        rw [hd]
        simp only [psizeArr, List.length_append]
        omega
    | cons y ys =>
        have hv := (ih (psize x) (by simp [psizeArr] at hN ⊢; omega)).1 x (le_refl _) d
        have hr := (ih (psizeArr (.cons y ys)) (by simp [psizeArr] at hN ⊢; omega)).2.1
          y ys (le_refl _) d
        have hd : dumpItems x (.cons y ys) d =
            sp (4 * d) ++ dumpVal x d ++ ',' :: '\n' :: dumpItems y ys d := by
          simp [dumpItems]
        rw [hd]
        simp only [psizeArr, List.length_append, List.length_cons] at hr ⊢
        omega
  · intro k v tl hN d
    cases tl with
    | nil =>
        have hv := (ih (psize v) (by simp [psizeObj] at hN ⊢; omega)).1 v (le_refl _) d
        have hd : dumpEntries k v .nil d =
            sp (4 * d) ++ dumpKeyChars k ++ ':' :: ' ' :: dumpVal v d := by
          simp [dumpEntries]
        rw [hd]
        simp only [psizeObj, List.length_append, List.length_cons]
        omega
    | cons k2 v2 tl2 =>
        have hv := (ih (psize v) (by simp [psizeObj] at hN ⊢; omega)).1 v (le_refl _) d
        have hr := (ih (psizeObj (.cons k2 v2 tl2)) (by simp [psizeObj] at hN ⊢; omega)).2.2
          k2 v2 tl2 (le_refl _) d
        have hd : dumpEntries k v (.cons k2 v2 tl2) d =
            sp (4 * d) ++ dumpKeyChars k ++ ':' :: ' ' :: dumpVal v d ++
              ',' :: '\n' :: dumpEntries k2 v2 tl2 d := by
          simp [dumpEntries]
        rw [hd]
        simp only [psizeObj, List.length_append, List.length_cons] at hr ⊢
        omega

theorem psize_le_dumpLen (v : PVal) (d : Nat) : psize v ≤ (dumpVal v d).length :=
  (dumpLen_master (psize v)).1 v (le_refl _) d

/-! ## The JSON persistence helpers of the module -/

/-- Content written by `json_store(outputfile, jsonobject)`: the
serialization of the object with `indent=4, sort_keys=True` (sorting
modelled by `canonSort`, serialization by `dumpVal`); `none` models the
`TypeError` Python raises when dict keys are unsortable. -/
def jsonStoreContent (v : PVal) : Option String :=
  (canonSort v).map (fun u => String.mk (dumpVal u 0))

/-- The round trip `json_load` after `json_store` on a well-formed value
(string-keyed, duplicate-free dicts): it succeeds and returns a value
deeply equal (Python `==`) to the original. -/
theorem json_store_load_roundtrip (v : PVal) (hg : goodStr v = true) :
    ∃ s u, jsonStoreContent v = some s ∧ jsonLoadContent s = some u ∧
      pyEq u v = true := by
  obtain ⟨u, hu, hgu, hpe⟩ := canon_good v hg
  refine ⟨String.mk (dumpVal u 0), u, by simp [jsonStoreContent, hu], ?_, hpe⟩
  have hlen : psize u ≤ (dumpVal u 0).length + 1 := by
    have := psize_le_dumpLen u 0
    omega
  have hparse := parse_dump_val u ((dumpVal u 0).length + 1) 0 [] [] hgu hlen rfl rfl
  simp only [List.nil_append, List.append_nil] at hparse
  simp only [jsonLoadContent]
  rw [show (String.mk (dumpVal u 0)).toList = dumpVal u 0 from rfl, hparse]
  rfl

/-! ## The command runner `run_cmd` -/

/-- Behaviour of spawning one process, as the environment determines it:
a normal exit with an exit code and the combined decoded stdout+stderr
capture, a `subprocess.SubprocessError` carrying output, or an `OSError`
(e.g. the program does not exist), which `run_cmd` does not catch. -/
inductive ProcBehavior where
  | exits (code : Nat) (output : String)
  | subprocessFail (output : String)
  | spawnError (msg : String)
deriving DecidableEq, Repr

/-- A Python exception as it leaves this module: a generic `Exception`
with its message, or an uncaught `OSError`. -/
inductive PyExc where
  | exc (msg : String)
  | osError (msg : String)
deriving DecidableEq, Repr

/-- Observable effects of one `run_cmd` call: lines printed, processes
spawned, and either a raised exception or the returned value (`none`
models Python's `None` return on a dry run). -/
structure RunEffects where
  printed : List String
  spawned : List (List String)
  outcome : Except PyExc (Option String)
deriving Repr

/-- Characters `shlex.quote` leaves unquoted (the `_find_unsafe` class
`[-A-Za-z0-9_@%+=:,.]` plus the slash, with `re.ASCII`). -/
def shSafeChar (c : Char) : Bool :=
  (decide ('a' ≤ c) && decide (c ≤ 'z')) || (decide ('A' ≤ c) && decide (c ≤ 'Z')) ||
    isDigitCh c || c == '_' || c == '@' || c == '%' || c == '+' || c == '=' ||
    c == ':' || c == ',' || c == '.' || c == '/' || c == '-'

/-- Replace each single quote by the five characters `'"'"'`, as
`shlex.quote` does inside a quoted string. -/
def shEscape : List Char → List Char
  | [] => []
  | c :: cs =>
      if c == squote then squote :: '"' :: squote :: '"' :: squote :: shEscape cs
      else c :: shEscape cs

/-- Python's `shlex.quote`: empty strings and strings with unsafe
characters are wrapped in single quotes. -/
def shQuote (s : String) : String :=
  if s = "" then String.mk [squote, squote]
  else if s.toList.all shSafeChar then s
  else String.mk (squote :: shEscape s.toList ++ [squote])

/-- The echoed command line: shell-quoted tokens joined by spaces, as
`" ".join([shlex.quote(c) for c in cmd])` renders it. -/
def shJoin (cmd : List String) : String :=
  String.intercalate " " (cmd.map shQuote)

/-- Python `repr` of a string made of ordinary characters, and of a list
of strings, as an f-string interpolates `{cmd}`.  The model covers
strings without quotes, backslashes or control characters, which is what
command tokens are; the claims only need that the rendering embeds every
token. -/
def pyStrRepr (s : String) : String :=
  String.mk (squote :: s.toList ++ [squote])

/-- Python `repr` of a list of strings: brackets, comma-space separated
item reprs. -/
def pyListRepr (cmd : List String) : String :=
  "[" ++ String.intercalate ", " (cmd.map pyStrRepr) ++ "]"

/-- Model of `run_cmd(cmd, dry_run, verbose)`: print the quoted command
when dry-running or verbose, return `None` without spawning on a dry run,
otherwise spawn once and either return the combined decoded output (exit
status zero) or raise: `CalledProcessError` is turned into an `Exception`
whose message carries the command and the captured output,
`SubprocessError` likewise, and an `OSError` propagates uncaught. -/
def runCmd (proc : List String → ProcBehavior) (cmd : List String)
    (dry_run verbose : Bool) : RunEffects :=
  let printed := if dry_run || verbose then [shJoin cmd] else []
  if dry_run then ⟨printed, [], .ok none⟩
  else
    match proc cmd with
    | .exits code out =>
        if code = 0 then ⟨printed, [cmd], .ok (some out)⟩
        else ⟨printed, [cmd], .error (.exc ("Nonzero return status running command " ++
          pyListRepr cmd ++ ":\n" ++ out))⟩
    | .subprocessFail out =>
        ⟨printed, [cmd], .error (.exc ("General error running command " ++
          pyListRepr cmd ++ ":\n" ++ out))⟩
    | .spawnError m => ⟨printed, [cmd], .error (.osError m)⟩

/-! ## The assertion helpers -/

/-- Observable effects of `assert_msg`: messages logged at error level and
the exit status passed to `sys.exit`, when the process was terminated. -/
structure AssertEffects where
  loggedErrors : List String
  exited : Option Nat
deriving DecidableEq, Repr

/-- Model of `assert_msg(check, fail_message)`: on a false check, log the
message as an error and terminate the process via `sys.exit(0)` — exit
status zero, exactly as the source writes it. -/
def assert_msg (check : Bool) (fail_message : String) : AssertEffects :=
  if check then ⟨[], none⟩ else ⟨[fail_message], some 0⟩

/-- Model of `assert_file(filename, fail_message)`: the file-existence
specialization, over an explicit file-system predicate. -/
def assert_file (isFile : String → Bool) (filename : String)
    (fail_message : String) : AssertEffects :=
  assert_msg (isFile filename) fail_message

/-! ## The transparent file opener -/

/-- Which library `file_open` routes to. -/
inductive OpenBackend where
  | bz2
  | gzip
  | plain
deriving DecidableEq, Repr

/-- Model of `file_open(filename, mode)`: substring match on the filename
selects the backend (`"bz2"` anywhere wins over `"gz"` anywhere, else a
plain open), and compressed opens get `"t"` appended to the mode. -/
def file_open (filename : String) (mode : String) : OpenBackend × String :=
  if strContains filename "bz2" then (.bz2, mode ++ "t")
  else if strContains filename "gz" then (.gzip, mode ++ "t")
  else (.plain, mode)

/-! ## Frame-rate arithmetic: `round(eval("num/den"))` -/

/-- Python's built-in `round` to an integer: nearest integer, ties to the
even one.  Modelled exactly over `ℚ` (`eval` divides two machine ints,
whose true division this models with exact rational arithmetic). -/
def pyRound (q : ℚ) : ℤ :=
  if q - ⌊q⌋ < 1 / 2 then ⌊q⌋
  else if (1 : ℚ) / 2 < q - ⌊q⌋ then ⌊q⌋ + 1
  else if ⌊q⌋ % 2 = 0 then ⌊q⌋ else ⌊q⌋ + 1

/-- Parse an optional minus sign and a nonempty digit string, consuming
everything. -/
def parseSignedInt : List Char → Option Int
  | [] => none
  | '-' :: cs =>
      match parseNatJ cs with
      | some (n, []) => some (-(n : Int))
      | _ => none
  | cs =>
      match parseNatJ cs with
      | some (n, []) => some ((n : Int))
      | _ => none

/-- Split a character list at every slash. -/
def splitSlashes : List Char → List (List Char)
  | [] => [[]]
  | c :: cs =>
      if c == '/' then [] :: splitSlashes cs
      else
        match splitSlashes cs with
        | h :: t => (c :: h) :: t
        | [] => [[c]]

/-- Python `eval` restricted to the rational strings the probe tool emits
for frame rates (`num/den`, two integer literals around a slash), the
fragment the module actually evaluates; other strings are modelled as
failures, and a zero denominator models the `ZeroDivisionError`.  The
evaluated true division is exact rational division. -/
def evalRat (s : String) : Option ℚ :=
  match splitSlashes s.toList with
  | [a, b] =>
      match parseSignedInt a, parseSignedInt b with
      | some num, some den => if den = 0 then none else some ((num : ℚ) / (den : ℚ))
      | _, _ => none
  | _ => none

/-- The frame-rate conversion the prober applies:
`needed[n] = round(eval(needed[n]))` on the raw string value. -/
def convRate : PVal → Option PVal
  | .str s => (evalRat s).map (fun q => .int (pyRound q))
  | _ => none

theorem pyRound_nearest (q : ℚ) : |(pyRound q : ℚ) - q| ≤ 1 / 2 := by
  have hfl : (⌊q⌋ : ℚ) ≤ q := Int.floor_le q
  have hfu : q < ⌊q⌋ + 1 := Int.lt_floor_add_one q
  unfold pyRound
  split
  · next h =>
      rw [abs_le]
      constructor <;> push_cast <;> linarith
  · split
    · next h1 h2 =>
        rw [abs_le]
        push_cast
        constructor <;> push_cast <;> linarith
    · next h1 h2 =>
        have heq : q - ⌊q⌋ = 1 / 2 := le_antisymm (not_lt.mp h2) (not_lt.mp h1)
        split <;> (rw [abs_le]; push_cast; constructor <;> linarith)

/-! ## The media prober `ffprobe` -/

/-- Environment the prober runs in: whether the `ffprobe` binary is
discoverable (`shutil.which`), which paths are regular files
(`os.path.isfile`), and what spawning a command does. -/
structure FfEnv where
  ffprobeOnPath : Bool
  isFile : String → Bool
  proc : List String → ProcBehavior

/-- Observable effects of one `ffprobe` call: the processes spawned and
either a raised exception or the returned metadata dict (an ordered
association list, as Python dicts preserve insertion order). -/
structure FfEffects where
  spawned : List (List String)
  outcome : Except PyExc (List (String × PVal))

/-- The fixed probe command line. -/
def ffprobeCmd (filename : String) : List String :=
  ["ffprobe", "-loglevel", "error", "-show_format", "-select_streams", "v:0",
    "-show_streams", "-of", "json", filename]

/-- The seven recognized stream fields, in the insertion order of the
`needed` dict. -/
def fieldNames : List String :=
  ["pix_fmt", "bits_per_raw_sample", "width", "height", "avg_frame_rate",
    "codec_name", "profile"]

/-- The initial `needed` dict: every recognized field mapped to the
sentinel string `"unknown"`. -/
def needed0 : List (String × PVal) := fieldNames.map (fun n => (n, .str "unknown"))

/-- Ordered-association-list update with Python dict semantics: an
existing key keeps its position, a new key is appended. -/
def setAssoc : List (String × PVal) → String → PVal → List (String × PVal)
  | [], k, v => [(k, v)]
  | (k2, v2) :: tl, k, v =>
      if k2 = k then (k, v) :: tl else (k2, v2) :: setAssoc tl k v

/-- Lookup in the ordered association list. -/
def lookupAssoc : List (String × PVal) → String → Option PVal
  | [], _ => none
  | (k2, v2) :: tl, k => if k2 = k then some v2 else lookupAssoc tl k

/-- One iteration of the inner loop: `if n in stream: needed[n] =
stream[n]`, with the frame-rate conversion applied in place; `none`
models the exception `eval`/`round` can raise. -/
def updateField (stream : PObj) (needed : List (String × PVal)) (n : String) :
    Option (List (String × PVal)) :=
  match lookupPy (.str n) stream with
  | none => some needed
  | some v =>
      if n = "avg_frame_rate" then (convRate v).map (fun r => setAssoc needed n r)
      else some (setAssoc needed n v)

/-- The inner loop over the recognized field names. -/
def procFields (stream : PObj) (needed : List (String × PVal)) :
    List String → Option (List (String × PVal))
  | [] => some needed
  | n :: ns => (updateField stream needed n).bind (fun nd => procFields stream nd ns)

/-- The outer loop over the parsed streams; a non-dict stream models the
`TypeError` Python membership testing would raise. -/
def procStreams (needed : List (String × PVal)) : PArr →
    Option (List (String × PVal))
  | .nil => some needed
  | .cons s tl =>
      match s with
      | .obj st => (procFields st needed fieldNames).bind (fun nd => procStreams nd tl)
      | _ => none

/-- `res.get("format", {}).get(name, dflt)`: the default when the format
section is absent or lacks the field; `none` models the `AttributeError`
on a non-dict format value. -/
def fmtGet (res : PObj) (name : String) (dflt : PVal) : Option PVal :=
  match lookupPy (.str "format") res with
  | none => some dflt
  | some (.obj f) => some ((lookupPy (.str name) f).getD dflt)
  | some _ => none

/-- Field extraction from the parsed probe output: the stream loop, then
the four derived entries `bitrate`, `codec`, `duration`, `video_profile`,
in the order the source inserts them. -/
def extractNeeded (resv : PVal) : Option (List (String × PVal)) :=
  match resv with
  | .obj res =>
      match lookupPy (.str "streams") res with
      | some (.arr streams) =>
          (procStreams needed0 streams).bind fun nd =>
          (fmtGet res "bit_rate" (.int (-1))).bind fun br =>
            let nd1 := setAssoc nd "bitrate" br
            match lookupAssoc nd1 "codec_name" with
            | none => none
            | some codecv =>
                let nd2 := setAssoc nd1 "codec" codecv
                (fmtGet res "duration" (.int 0)).bind fun dur =>
                  let nd3 := setAssoc nd2 "duration" dur
                  match lookupAssoc nd3 "profile" with
                  | none => none
                  | some profv => some (setAssoc nd3 "video_profile" profv)
      | _ => none
  | _ => none

/-- Model of `ffprobe(filename)`: the `shutil.which` check, the
`os.path.isfile` check, the fixed command run through the command runner,
the emptiness check on the stripped output, `json.loads`, and the field
extraction.  Failures raise the module's literal exception messages;
`json.loads` and extraction failures are modelled as generic raised
exceptions, which the claims never exercise. -/
def ffprobe (env : FfEnv) (filename : String) : FfEffects :=
  if env.ffprobeOnPath = false then
    ⟨[], .error (.exc "you need to have ffprobe installed, please read README.md.")⟩
  else if env.isFile filename = false then
    ⟨[], .error (.exc (filename ++ " is not a valid file"))⟩
  else
    let r := runCmd env.proc (ffprobeCmd filename) false false
    match r.outcome with
    | .error e => ⟨r.spawned, .error e⟩
    | .ok none => ⟨r.spawned, .error (.osError "AttributeError: NoneType has no strip")⟩
    | .ok (some out) =>
        let res := pyStrip out
        if res.length = 0 then
          ⟨r.spawned, .error (.exc (filename ++
            " is somehow not valid, so ffprobe could not extract anything"))⟩
        else
          match jsonLoadContent res with
          | none => ⟨r.spawned, .error (.exc "json.decoder.JSONDecodeError")⟩
          | some resv =>
              match extractNeeded resv with
              | none => ⟨r.spawned, .error (.exc "error extracting stream metadata")⟩
              | some needed => ⟨r.spawned, .ok needed⟩

/-- Model of the content written by `json_store` and read by `json_load`,
specialized to nothing: the two are `json.dump`/`json.load` wrappers, so
their models are `jsonStoreContent` and `jsonLoadContent` above. -/
def json_store (v : PVal) : Option String := jsonStoreContent v

/-- Model of `json_load` on file content. -/
def json_load (s : String) : Option PVal := jsonLoadContent s

/-! ## Facts about the extraction loop -/

/-- Keys of the ordered association list, in order. -/
def keysAssoc (l : List (String × PVal)) : List String := l.map Prod.fst

/-- The conversion applied to a field value found in the stream: identity
except for the frame rate. -/
def updConv (m : String) (v : PVal) : Option PVal :=
  if m = "avg_frame_rate" then convRate v else some v

theorem lookupAssoc_setAssoc (l : List (String × PVal)) (k m : String) (v : PVal) :
    lookupAssoc (setAssoc l k v) m = if k = m then some v else lookupAssoc l m := by
  induction l with
  | nil =>
      by_cases h : k = m <;> simp [setAssoc, lookupAssoc, h]
  | cons p tl ih =>
      obtain ⟨k2, v2⟩ := p
      by_cases h2 : k2 = k
      · subst h2
        by_cases h : k2 = m <;> simp [setAssoc, lookupAssoc, h]
      · by_cases h : k2 = m
        · subst h
          have : k ≠ k2 := fun e => h2 e.symm
          simp [setAssoc, lookupAssoc, h2, this]
        · simp [setAssoc, lookupAssoc, h2, h, ih]

theorem keysAssoc_setAssoc_mem (l : List (String × PVal)) (k : String) (v : PVal)
    (h : k ∈ keysAssoc l) : keysAssoc (setAssoc l k v) = keysAssoc l := by
  induction l with
  | nil => simp [keysAssoc] at h
  | cons p tl ih =>
      obtain ⟨k2, v2⟩ := p
      by_cases h2 : k2 = k
      · subst h2
        simp [setAssoc, keysAssoc]
      · simp only [keysAssoc, List.map_cons, List.mem_cons] at h
        rcases h with h | h
        · exact absurd h.symm h2
        · have hh := ih (by simpa [keysAssoc] using h)
          simp only [keysAssoc] at hh
          simp [setAssoc, keysAssoc, h2, hh]

theorem keysAssoc_setAssoc_not_mem (l : List (String × PVal)) (k : String) (v : PVal)
    (h : k ∉ keysAssoc l) : keysAssoc (setAssoc l k v) = keysAssoc l ++ [k] := by
  induction l with
  | nil => simp [setAssoc, keysAssoc]
  | cons p tl ih =>
      obtain ⟨k2, v2⟩ := p
      simp only [keysAssoc, List.map_cons, List.mem_cons, not_or] at h
      have h2 : k2 ≠ k := fun e => h.1 e.symm
      have hh := ih (by simpa [keysAssoc] using h.2)
      simp only [keysAssoc] at hh
      simp [setAssoc, keysAssoc, h2, hh]

theorem updateField_inv (st : PObj) (needed : List (String × PVal)) (n : String)
    (L : List (String × PVal)) (h : updateField st needed n = some L) :
    (lookupPy (.str n) st = none ∧ L = needed) ∨
      (∃ v r, lookupPy (.str n) st = some v ∧ updConv n v = some r ∧
        L = setAssoc needed n r) := by
  unfold updateField at h
  split at h
  · rename_i hs
    simp only [Option.some.injEq] at h
    exact Or.inl ⟨hs, h.symm⟩
  · rename_i v hs
    by_cases hn : n = "avg_frame_rate"
    · rw [if_pos hn] at h
      rcases hc : convRate v with _ | r <;> rw [hc] at h
      · cases h
      · simp only [Option.map_some', Option.some.injEq] at h
        refine Or.inr ⟨v, r, hs, ?_, h.symm⟩
        simp [updConv, hn, hc]
    · rw [if_neg hn] at h
      simp only [Option.some.injEq] at h
      refine Or.inr ⟨v, v, hs, ?_, h.symm⟩
      simp [updConv, hn]

theorem procFields_lookup (st : PObj) (names : List String) (hnodup : names.Nodup) :
    ∀ needed L, procFields st needed names = some L →
    ∀ m, ((m ∉ names) → lookupAssoc L m = lookupAssoc needed m) ∧
      (m ∈ names →
        ((lookupPy (.str m) st = none ∧ lookupAssoc L m = lookupAssoc needed m) ∨
          (∃ v r, lookupPy (.str m) st = some v ∧ updConv m v = some r ∧
            lookupAssoc L m = some r))) := by
  induction names with
  | nil =>
      intro needed L h m
      simp only [procFields, Option.some.injEq] at h
      subst h
      exact ⟨fun _ => rfl, fun hm => absurd hm (List.not_mem_nil m)⟩
  | cons n ns ih =>
      intro needed L h m
      simp only [procFields] at h
      rcases hup : updateField st needed n with _ | nd <;> rw [hup] at h
      · cases h
      · simp only [Option.some_bind] at h
        have hnodup2 : ns.Nodup := (List.nodup_cons.mp hnodup).2
        have hnmem : n ∉ ns := (List.nodup_cons.mp hnodup).1
        have IH := ih hnodup2 nd L h
        have hupd := updateField_inv st needed n nd hup
        have hndm : ∀ q, q ≠ n → lookupAssoc nd q = lookupAssoc needed q := by
          intro q hq
          rcases hupd with ⟨_, rfl⟩ | ⟨v, r, _, _, rfl⟩
          · rfl
          · rw [lookupAssoc_setAssoc, if_neg (fun e => hq e.symm)]
        constructor
        · intro hm
          simp only [List.mem_cons, not_or] at hm
          rw [(IH m).1 hm.2, hndm m hm.1]
        · intro hm
          simp only [List.mem_cons] at hm
          by_cases hmns : m ∈ ns
          · rcases (IH m).2 hmns with ⟨hnone, heq⟩ | hsome
            · exact Or.inl ⟨hnone, by rw [heq, hndm m (fun e => hnmem (e ▸ hmns))]⟩
            · exact Or.inr hsome
          · have hmn : m = n := by
              rcases hm with h | h
              · exact h
              · exact absurd h hmns
            subst hmn
            rw [(IH m).1 hmns]
            rcases hupd with ⟨hnone, rfl⟩ | ⟨v, r, hv, hc, rfl⟩
            · exact Or.inl ⟨hnone, rfl⟩
            · refine Or.inr ⟨v, r, hv, hc, ?_⟩
              rw [lookupAssoc_setAssoc]
              simp

theorem keysAssoc_procFields (st : PObj) (names : List String) :
    ∀ needed L, procFields st needed names = some L →
    (∀ n ∈ names, n ∈ keysAssoc needed) → keysAssoc L = keysAssoc needed := by
  induction names with
  | nil =>
      intro needed L h _
      simp only [procFields, Option.some.injEq] at h
      subst h
      rfl
  | cons n ns ih =>
      intro needed L h hmem
      simp only [procFields] at h
      rcases hup : updateField st needed n with _ | nd <;> rw [hup] at h
      · cases h
      · simp only [Option.some_bind] at h
        have hknd : keysAssoc nd = keysAssoc needed := by
          rcases updateField_inv st needed n nd hup with ⟨_, rfl⟩ | ⟨v, r, _, _, rfl⟩
          · rfl
          · exact keysAssoc_setAssoc_mem needed n r (hmem n (by simp))
        rw [ih nd L h (fun q hq => by rw [hknd]; exact hmem q (by simp [hq])), hknd]

theorem keysAssoc_procStreams (streams : PArr) :
    ∀ needed L, procStreams needed streams = some L →
    (∀ n ∈ fieldNames, n ∈ keysAssoc needed) → keysAssoc L = keysAssoc needed := by
  cases streams with
  | nil =>
      intro needed L h _
      simp only [procStreams, Option.some.injEq] at h
      subst h
      rfl
  | cons s tl =>
      intro needed L h hmem
      simp only [procStreams] at h
      cases s with
      | obj st =>
          replace h : (procFields st needed fieldNames).bind
              (fun nd => procStreams nd tl) = some L := h
          rcases hp : procFields st needed fieldNames with _ | nd <;> rw [hp] at h
          · cases h
          · simp only [Option.some_bind] at h
            have h1 := keysAssoc_procFields st fieldNames needed nd hp hmem
            rw [keysAssoc_procStreams tl nd L h
              (fun q hq => by rw [h1]; exact hmem q hq), h1]
      | null => cases h
      | bool b => cases h
      | int z => cases h
      | str s2 => cases h
      | arr a => cases h

/-! ## Facts about the frame-rate evaluation -/

theorem splitSlashes_no_slash (l : List Char) (h : ∀ c ∈ l, (c == '/') = false) :
    splitSlashes l = [l] := by
  induction l with
  | nil => rfl
  | cons c cs ih =>
      have hc := h c (by simp)
      have hrest := ih (fun c2 hc2 => h c2 (by simp [hc2]))
      simp [splitSlashes, hc, hrest]

theorem splitSlashes_append (a b : List Char) (ha : ∀ c ∈ a, (c == '/') = false) :
    splitSlashes (a ++ '/' :: b) = a :: splitSlashes b := by
  induction a with
  | nil => simp [splitSlashes]
  | cons c cs ih =>
      have hc := ha c (by simp)
      have hrest := ih (fun c2 hc2 => ha c2 (by simp [hc2]))
      simp only [List.cons_append, splitSlashes, hc, Bool.false_eq_true, if_false,
        ite_false, List.append_eq, hrest]

theorem natDigits_all_digits (n : Nat) : ∀ c ∈ natDigits n, isDigitCh c = true := by
  induction n using Nat.strong_induction_on with
  | _ n ih =>
    by_cases h : n < 10
    · rw [natDigits_small n h]
      intro c hc
      simp only [List.mem_singleton] at hc
      subst hc
      exact isDigitCh_digitChar n h
    · rw [natDigits_big n h]
      intro c hc
      simp only [List.mem_append, List.mem_singleton] at hc
      rcases hc with hc | hc
      · exact ih (n / 10) (Nat.div_lt_self (by omega) (by omega)) c hc
      · subst hc
        exact isDigitCh_digitChar _ (Nat.mod_lt _ (by omega))

theorem intRepr_no_slash (z : Int) : ∀ c ∈ intRepr z, (c == '/') = false := by
  intro c hc
  unfold intRepr at hc
  have hdig : isDigitCh c = true ∨ c = '-' := by
    split at hc
    · simp only [List.mem_cons] at hc
      rcases hc with hc | hc
      · exact Or.inr hc
      · exact Or.inl (natDigits_all_digits _ c hc)
    · exact Or.inl (natDigits_all_digits _ c hc)
  rcases hdig with hd | hd
  · have hr := isDigitCh_toNat hd
    exact char_beq_false (by have e : ('/').toNat = 47 := rfl; rw [e]; omega)
  · subst hd
    rfl

theorem parseSignedInt_intRepr (z : Int) : parseSignedInt (intRepr z) = some z := by
  by_cases hz : z < 0
  · have hd : intRepr z = '-' :: natDigits z.natAbs := by simp [intRepr, hz]
    rw [hd]
    have : parseNatJ (natDigits z.natAbs ++ []) = some (z.natAbs, []) :=
      parseNatJ_natDigits _ [] rfl
    simp only [List.append_nil] at this
    simp only [parseSignedInt, this]
    congr 1
    omega
  · obtain ⟨c, cs, hc, hdg⟩ := natDigits_head_digit z.toNat
    have hd : intRepr z = natDigits z.toNat := by simp [intRepr, hz]
    have hne : (c == '-') = false := by
      have hr := isDigitCh_toNat hdg
      exact char_beq_false (by have e : ('-').toNat = 45 := rfl; rw [e]; omega)
    have hp : parseNatJ (natDigits z.toNat ++ []) = some (z.toNat, []) :=
      parseNatJ_natDigits _ [] rfl
    simp only [List.append_nil] at hp
    rw [hd, hc]
    rw [hc] at hp
    have hcm : c ≠ '-' := by
      intro e
      rw [e] at hne
      simp at hne
    rw [parseSignedInt.eq_def]
    split
    · rename_i heq
      cases heq
    · rename_i cs2 heq
      injection heq with h1 h2
      exact absurd h1 hcm
    · rw [hp]
      simp only [Option.some.injEq]
      omega

/-- The rational frame-rate string `num/den`. -/
def ratStr (num den : Int) : String := String.mk (intRepr num ++ '/' :: intRepr den)

theorem evalRat_ratStr (num den : Int) (hden : den ≠ 0) :
    evalRat (ratStr num den) = some ((num : ℚ) / (den : ℚ)) := by
  unfold evalRat ratStr
  rw [show (String.mk (intRepr num ++ '/' :: intRepr den)).toList =
    intRepr num ++ '/' :: intRepr den from rfl]
  rw [splitSlashes_append _ _ (intRepr_no_slash num),
    splitSlashes_no_slash _ (intRepr_no_slash den)]
  simp only [parseSignedInt_intRepr]
  rw [if_neg hden]

theorem convRate_ratStr (num den : Int) (hden : den ≠ 0) :
    convRate (.str (ratStr num den)) =
      some (.int (pyRound ((num : ℚ) / (den : ℚ)))) := by
  simp [convRate, evalRat_ratStr num den hden]

/-! ## Assembling successful probes -/

theorem jsonLoadContent_pos_length (s : String) (v : PVal)
    (h : jsonLoadContent s = some v) : s.length ≠ 0 := by
  intro hlen
  have hnil : s.toList = [] := by
    have : s.toList.length = 0 := hlen
    exact List.length_eq_zero.mp this
  rw [jsonLoadContent, hnil] at h
  simp [parseVal, skipWs] at h

theorem lookupAssoc_some_of_mem_keys (l : List (String × PVal)) (k : String)
    (h : k ∈ keysAssoc l) : ∃ v, lookupAssoc l k = some v := by
  induction l with
  | nil => simp [keysAssoc] at h
  | cons p tl ih =>
      obtain ⟨k2, v2⟩ := p
      by_cases h2 : k2 = k
      · exact ⟨v2, by simp [lookupAssoc, h2]⟩
      · simp only [keysAssoc, List.map_cons, List.mem_cons] at h
        rcases h with h | h
        · exact absurd h.symm h2
        · obtain ⟨v, hv⟩ := ih h
          exact ⟨v, by simp [lookupAssoc, h2, hv]⟩

theorem procFields_success (st : PObj) (names : List String) :
    ∀ needed, (∀ n ∈ names, ∀ v, lookupPy (.str n) st = some v →
      ∃ r, updConv n v = some r) →
    ∃ L, procFields st needed names = some L := by
  induction names with
  | nil => exact fun needed _ => ⟨needed, rfl⟩
  | cons n ns ih =>
      intro needed hyp
      have hupd : ∃ nd, updateField st needed n = some nd := by
        rcases hs : lookupPy (.str n) st with _ | v
        · exact ⟨needed, by unfold updateField; rw [hs]⟩
        · obtain ⟨r, hr⟩ := hyp n (by simp) v hs
          by_cases hn : n = "avg_frame_rate"
          · rw [updConv, if_pos hn] at hr
            refine ⟨setAssoc needed n r, ?_⟩
            unfold updateField
            rw [hs]
            show (if n = "avg_frame_rate" then (convRate v).map (fun r => setAssoc needed n r)
              else some (setAssoc needed n v)) = some (setAssoc needed n r)
            rw [if_pos hn, hr, Option.map_some']
          · refine ⟨setAssoc needed n v, ?_⟩
            unfold updateField
            rw [hs]
            show (if n = "avg_frame_rate" then (convRate v).map (fun r => setAssoc needed n r)
              else some (setAssoc needed n v)) = some (setAssoc needed n v)
            rw [if_neg hn]
      obtain ⟨nd, hnd⟩ := hupd
      obtain ⟨L, hL⟩ := ih nd (fun q hq => hyp q (by simp [hq]))
      exact ⟨L, by simp [procFields, hnd, hL]⟩

theorem extractNeeded_success (res : PObj) (streams : PArr)
    (nd0 : List (String × PVal)) (br dur : PVal)
    (hstreams : lookupPy (.str "streams") res = some (.arr streams))
    (hps : procStreams needed0 streams = some nd0)
    (hkeys : keysAssoc nd0 = fieldNames)
    (hbr : fmtGet res "bit_rate" (.int (-1)) = some br)
    (hdur : fmtGet res "duration" (.int 0) = some dur) :
    ∃ codecv profv, lookupAssoc nd0 "codec_name" = some codecv ∧
      lookupAssoc nd0 "profile" = some profv ∧
      extractNeeded (.obj res) = some (setAssoc (setAssoc (setAssoc
        (setAssoc nd0 "bitrate" br) "codec" codecv) "duration" dur)
        "video_profile" profv) := by
  obtain ⟨codecv, hcv⟩ := lookupAssoc_some_of_mem_keys nd0 "codec_name"
    (by rw [hkeys]; simp [fieldNames])
  obtain ⟨profv, hpv⟩ := lookupAssoc_some_of_mem_keys nd0 "profile"
    (by rw [hkeys]; simp [fieldNames])
  refine ⟨codecv, profv, hcv, hpv, ?_⟩
  have hcv1 : lookupAssoc (setAssoc nd0 "bitrate" br) "codec_name" = some codecv := by
    rw [lookupAssoc_setAssoc, if_neg (by decide), hcv]
  have hpv3 : lookupAssoc (setAssoc (setAssoc (setAssoc nd0 "bitrate" br) "codec" codecv)
      "duration" dur) "profile" = some profv := by
    rw [lookupAssoc_setAssoc, if_neg (by decide), lookupAssoc_setAssoc,
      if_neg (by decide), lookupAssoc_setAssoc, if_neg (by decide), hpv]
  simp only [extractNeeded, hstreams, hps, hbr, Option.some_bind, hcv1, hdur, hpv3]

theorem ffprobe_success (env : FfEnv) (fn out : String) (res : PObj)
    (nd : List (String × PVal))
    (h1 : env.ffprobeOnPath = true) (h2 : env.isFile fn = true)
    (h3 : env.proc (ffprobeCmd fn) = .exits 0 out)
    (h4 : jsonLoadContent (pyStrip out) = some (.obj res))
    (h5 : extractNeeded (.obj res) = some nd) :
    ffprobe env fn = ⟨[ffprobeCmd fn], .ok nd⟩ := by
  have hlen : ¬ (pyStrip out).length = 0 := jsonLoadContent_pos_length _ _ h4
  unfold ffprobe
  rw [h1, h2]
  simp only [Bool.true_eq_false, if_false, ite_false]
  have hrun : runCmd env.proc (ffprobeCmd fn) false false =
      ⟨[], [ffprobeCmd fn], .ok (some out)⟩ := by
    unfold runCmd
    rw [h3]
    rfl
  rw [hrun]
  simp only [if_neg hlen, h4, h5]

/-- Loading the serializer's own output: the round-trip specialized to a
dump at depth 0. -/
theorem jsonLoadContent_dump (v : PVal) (hg : goodStr v = true) :
    jsonLoadContent (String.mk (dumpVal v 0)) = some v := by
  have hlen : psize v ≤ (dumpVal v 0).length + 1 := by
    have := psize_le_dumpLen v 0
    omega
  have hp := parse_dump_val v ((dumpVal v 0).length + 1) 0 [] [] hg hlen rfl rfl
  simp only [List.nil_append, List.append_nil] at hp
  simp only [jsonLoadContent]
  rw [show (String.mk (dumpVal v 0)).toList = dumpVal v 0 from rfl, hp]
  rfl

/-- `str.strip()` leaves a brace-delimited string unchanged. -/
theorem pyStrip_wrap (a : List Char) :
    pyStrip (String.mk (lbrace :: (a ++ [rbrace]))) = String.mk (lbrace :: (a ++ [rbrace])) := by
  unfold pyStrip
  rw [show (String.mk (lbrace :: (a ++ [rbrace]))).toList = lbrace :: (a ++ [rbrace]) from rfl]
  rw [List.dropWhile_cons_of_neg (by simp [show isWs lbrace = false from by decide])]
  rw [show (lbrace :: (a ++ [rbrace])).reverse = rbrace :: (a.reverse ++ [lbrace]) from by simp]
  rw [List.dropWhile_cons_of_neg (by simp [show isWs rbrace = false from by decide])]
  rw [show (rbrace :: (a.reverse ++ [lbrace])).reverse = lbrace :: (a ++ [rbrace]) from by simp]

/-! ## A concrete probe-tool fixture -/

/-- The first (and only) video stream of the fixture output. -/
def fixSt : PObj :=
  .cons (.str "width") (.int 3840) (.cons (.str "height") (.int 2160)
    (.cons (.str "codec_name") (.str "h264")
      (.cons (.str "avg_frame_rate") (.str "30000/1001") .nil)))

/-- The parsed fixture output: one stream, no format section. -/
def fixRes : PObj := .cons (.str "streams") (.arr (.cons (.obj fixSt) .nil)) .nil

def fixVal : PVal := .obj fixRes

/-- The fixture's raw tool output: well-formed JSON text carrying
`fixRes`. -/
def fixOut : String := String.mk (dumpVal fixVal 0)

/-- A concrete environment: the tool is on the path, every file exists,
and the probe command prints the fixture output and exits 0. -/
def fixEnv : FfEnv :=
  ⟨true, fun _ => true, fun c => if c = ffprobeCmd "a.mp4" then .exits 0 fixOut else .exits 1 ""⟩

theorem fixOut_shape : dumpVal fixVal 0 = lbrace ::
    (('\n' :: (dumpEntries (.str "streams") (.arr (.cons (.obj fixSt) .nil)) .nil 1 ++ ['\n']))
      ++ [rbrace]) := by
  simp [fixVal, fixRes, dumpVal, sp]

theorem fix_strip : pyStrip fixOut = fixOut := by
  rw [show fixOut = String.mk (dumpVal fixVal 0) from rfl, fixOut_shape, pyStrip_wrap,
    ← fixOut_shape]

theorem fix_load : jsonLoadContent (pyStrip fixOut) = some (.obj fixRes) := by
  rw [fix_strip]
  exact jsonLoadContent_dump fixVal (by decide)

/-- Per-field values of a successful single-stream probe: each of the
seven recognized names ends at its converted stream value when the stream
carries it, and at the sentinel `"unknown"` when it does not. -/
theorem ffprobe_fields (env : FfEnv) (fn out : String) (res st : PObj) (br dur : PVal)
    (h1 : env.ffprobeOnPath = true) (h2 : env.isFile fn = true)
    (h3 : env.proc (ffprobeCmd fn) = .exits 0 out)
    (h4 : jsonLoadContent (pyStrip out) = some (.obj res))
    (h5 : lookupPy (.str "streams") res = some (.arr (.cons (.obj st) .nil)))
    (havg : ∀ v, lookupPy (.str "avg_frame_rate") st = some v → ∃ r, convRate v = some r)
    (hbr : fmtGet res "bit_rate" (.int (-1)) = some br)
    (hdur : fmtGet res "duration" (.int 0) = some dur) :
    ∃ nd, ffprobe env fn = ⟨[ffprobeCmd fn], .ok nd⟩ ∧
      ∀ m ∈ fieldNames,
        (lookupPy (.str m) st = none → lookupAssoc nd m = some (.str "unknown")) ∧
        (∀ v r, lookupPy (.str m) st = some v → updConv m v = some r →
          lookupAssoc nd m = some r) := by
  have hyp : ∀ n ∈ fieldNames, ∀ v, lookupPy (.str n) st = some v →
      ∃ r, updConv n v = some r := by
    intro n _ v hv
    by_cases hna : n = "avg_frame_rate"
    · subst hna
      obtain ⟨r, hr⟩ := havg v hv
      exact ⟨r, by rw [updConv, if_pos rfl, hr]⟩
    · exact ⟨v, by rw [updConv, if_neg hna]⟩
  obtain ⟨L, hL⟩ := procFields_success st fieldNames needed0 hyp
  have hps : procStreams needed0 (.cons (.obj st) .nil) = some L := by
    simp [procStreams, hL]
  have hkeys : keysAssoc L = fieldNames := by
    have hk := keysAssoc_procFields st fieldNames needed0 L hL (by
      intro n hn
      have e : keysAssoc needed0 = fieldNames := rfl
      rw [e]
      exact hn)
    rw [hk]
    rfl
  obtain ⟨codecv, profv, hcv, hpv, hext⟩ :=
    extractNeeded_success res _ L br dur h5 hps hkeys hbr hdur
  have hff := ffprobe_success env fn out res _ h1 h2 h3 h4 hext
  refine ⟨_, hff, ?_⟩
  intro m hm
  have h4ne : ¬("bitrate" = m) ∧ ¬("codec" = m) ∧ ¬("duration" = m) ∧
      ¬("video_profile" = m) := by
    fin_cases hm <;> exact ⟨by decide, by decide, by decide, by decide⟩
  have hred : lookupAssoc (setAssoc (setAssoc (setAssoc (setAssoc L "bitrate" br)
      "codec" codecv) "duration" dur) "video_profile" profv) m = lookupAssoc L m := by
    rw [lookupAssoc_setAssoc, if_neg h4ne.2.2.2, lookupAssoc_setAssoc, if_neg h4ne.2.2.1,
      lookupAssoc_setAssoc, if_neg h4ne.2.1, lookupAssoc_setAssoc, if_neg h4ne.1]
  have hlk := procFields_lookup st fieldNames (by decide) needed0 L hL m
  have hn0 : lookupAssoc needed0 m = some (.str "unknown") := by
    fin_cases hm <;> rfl
  constructor
  · intro hnone
    rcases hlk.2 hm with ⟨_, heq⟩ | ⟨v, _, hv, _, _⟩
    · rw [hred, heq, hn0]
    · rw [hnone] at hv
      cases hv
  · intro v r hv hr
    rcases hlk.2 hm with ⟨hnone, _⟩ | ⟨v2, r2, hv2, hr2, heq⟩
    · rw [hv] at hnone
      cases hnone
    · rw [hv] at hv2
      injection hv2 with e
      subst e
      rw [hr] at hr2
      injection hr2 with e2
      subst e2
      rw [hred, heq]

/-! ## Inverting a successful probe -/

theorem runCmd_ok_inv (proc : List String → ProcBehavior) (cmd : List String) (out : String)
    (h : (runCmd proc cmd false false).outcome = .ok (some out)) :
    proc cmd = .exits 0 out := by
  rcases hp : proc cmd with ⟨c, o⟩ | ⟨o⟩ | ⟨m⟩
  · by_cases hc : c = 0
    · subst hc
      simp [runCmd, hp] at h
      rw [h]
    · simp [runCmd, hp, hc] at h
  · simp [runCmd, hp] at h
  · simp [runCmd, hp] at h

theorem extractNeeded_inv (resv : PVal) (nd : List (String × PVal))
    (h : extractNeeded resv = some nd) :
    ∃ res streams L br codecv dur profv,
      resv = .obj res ∧
      lookupPy (.str "streams") res = some (.arr streams) ∧
      procStreams needed0 streams = some L ∧
      fmtGet res "bit_rate" (.int (-1)) = some br ∧
      lookupAssoc (setAssoc L "bitrate" br) "codec_name" = some codecv ∧
      fmtGet res "duration" (.int 0) = some dur ∧
      lookupAssoc (setAssoc (setAssoc (setAssoc L "bitrate" br) "codec" codecv)
        "duration" dur) "profile" = some profv ∧
      nd = setAssoc (setAssoc (setAssoc (setAssoc L "bitrate" br) "codec" codecv)
        "duration" dur) "video_profile" profv := by
  cases resv with
  | null => simp [extractNeeded] at h
  | bool b => simp [extractNeeded] at h
  | int z => simp [extractNeeded] at h
  | str s => simp [extractNeeded] at h
  | arr xs => simp [extractNeeded] at h
  | obj res =>
      refine ⟨res, ?_⟩
      simp only [extractNeeded] at h
      rcases hs : lookupPy (.str "streams") res with _ | v <;> rw [hs] at h
      · simp at h
      · cases v with
        | arr streams =>
            simp only [Option.bind_eq_some] at h
            obtain ⟨L, hL, h⟩ := h
            obtain ⟨br, hbr, h⟩ := h
            rcases hcv : lookupAssoc (setAssoc L "bitrate" br) "codec_name" with _ | codecv <;>
              rw [hcv] at h
            · simp at h
            · simp only [Option.bind_eq_some] at h
              obtain ⟨dur, hdur, h⟩ := h
              rcases hpv : lookupAssoc (setAssoc (setAssoc (setAssoc L "bitrate" br)
                  "codec" codecv) "duration" dur) "profile" with _ | profv <;> rw [hpv] at h
              · simp at h
              · simp only [Option.some.injEq] at h
                exact ⟨streams, L, br, codecv, dur, profv, rfl, rfl, hL, hbr, hcv, hdur,
                  hpv, h.symm⟩
        | null => simp at h
        | bool b => simp at h
        | int z => simp at h
        | str s => simp at h
        | obj o => simp at h

theorem ffprobe_ok_inv (env : FfEnv) (fn : String) (nd : List (String × PVal))
    (h : (ffprobe env fn).outcome = .ok nd) :
    ∃ out resv, env.proc (ffprobeCmd fn) = .exits 0 out ∧
      jsonLoadContent (pyStrip out) = some resv ∧
      extractNeeded resv = some nd := by
  have ht : env.ffprobeOnPath = true := by
    by_contra hc
    have hf : env.ffprobeOnPath = false := by
      revert hc
      cases env.ffprobeOnPath <;> simp
    simp only [ffprobe, hf, if_pos rfl] at h
    simp at h
  have ht2 : env.isFile fn = true := by
    by_contra hc
    have hf : env.isFile fn = false := by
      revert hc
      cases env.isFile fn <;> simp
    simp only [ffprobe, ht, hf] at h
    simp at h
  simp only [ffprobe, ht, ht2, Bool.true_eq_false, if_false] at h
  split at h
  · simp at h
  · simp at h
  · rename_i out heq
    split at h
    · simp at h
    · split at h
      · simp at h
      · rename_i resv hj
        split at h
        · simp at h
        · rename_i nd2 he
          simp only [Except.ok.injEq] at h
          exact ⟨out, resv, runCmd_ok_inv _ _ _ heq, hj, by rw [he, h]⟩

/-! ## String append facts -/

theorem strAppend_assoc (a b c : String) : a ++ b ++ c = a ++ (b ++ c) :=
  congrArg String.mk (List.append_assoc a.data b.data c.data)

theorem strAppend_nil (a : String) : a ++ "" = a :=
  congrArg String.mk (List.append_nil a.data)

theorem lookupAssoc_setAssoc_ne (l : List (String × PVal)) (k m : String) (v : PVal)
    (h : ¬ k = m) : lookupAssoc (setAssoc l k v) m = lookupAssoc l m := by
  rw [lookupAssoc_setAssoc, if_neg h]

theorem lookupAssoc_setAssoc_self (l : List (String × PVal)) (k : String) (v : PVal) :
    lookupAssoc (setAssoc l k v) k = some v := by
  rw [lookupAssoc_setAssoc, if_pos rfl]

/-! ## The claims -/

/-- C2: for every command whose process exits with a non-zero status,
`run_cmd` (dry run off) raises an `Exception` whose message contains both
the rendered command and the captured combined output, after spawning the
process exactly once; it neither returns normally nor fails silently. -/
theorem C2_run_cmd_nonzero_raises (proc : List String → ProcBehavior)
    (cmd : List String) (code : Nat) (out : String)
    (hcode : code ≠ 0) (hproc : proc cmd = .exits code out) :
    ∃ msg, runCmd proc cmd false false = ⟨[], [cmd], .error (.exc msg)⟩ ∧
      StrContains msg out ∧ StrContains msg (pyListRepr cmd) := by
  refine ⟨"Nonzero return status running command " ++ pyListRepr cmd ++ ":\n" ++ out,
    ?_, ?_, ?_⟩
  · simp [runCmd, hproc, hcode]
  · exact ⟨"Nonzero return status running command " ++ pyListRepr cmd ++ ":\n", "",
      by rw [strAppend_nil]⟩
  · exact ⟨"Nonzero return status running command ", ":\n" ++ out, by rw [strAppend_assoc]⟩

theorem C2_witness : ∃ msg, runCmd (fun _ => .exits 1 "boom") ["false"] false false =
      ⟨[], [["false"]], .error (.exc msg)⟩ ∧
    StrContains msg "boom" ∧ StrContains msg (pyListRepr ["false"]) :=
  C2_run_cmd_nonzero_raises (fun _ => .exits 1 "boom") ["false"] 1 "boom" (by decide) rfl

/-- C3 counterexample: a dry run is not side-effect free — it prints the
shell-quoted command line. -/
theorem C3_counterexample :
    (runCmd (fun _ => .exits 0 "") ["ls"] true false).printed = ["ls"] ∧
      ("ls" :: []) ≠ ([] : List String) := by
  constructor
  · rfl
  · decide

/-- C3 (amended): with `dry_run` set, `run_cmd` prints the shell-quoted
command, spawns no process, and returns `None` — regardless of `verbose`
and of whether the program exists. -/
theorem C3_dry_run_returns (proc : List String → ProcBehavior)
    (cmd : List String) (verbose : Bool) :
    runCmd proc cmd true verbose = ⟨[shJoin cmd], [], .ok none⟩ := by
  simp [runCmd]

/-- C4 counterexample: on a missing tool and a nonexistent file together,
the probe raises the tool-missing message, not the file message. -/
theorem C4_counterexample :
    ffprobe ⟨false, fun _ => false, fun _ => .exits 1 ""⟩ "nope.mp4" =
      ⟨[], .error (.exc "you need to have ffprobe installed, please read README.md.")⟩ ∧
    "you need to have ffprobe installed, please read README.md." ≠
      "nope.mp4" ++ " is not a valid file" := by
  constructor
  · rfl
  · decide

/-- C4 (amended): a missing tool always raises the tool-missing hint; a
nonexistent file raises the file hint only when the tool is present; in
both cases no subprocess is spawned. -/
theorem C4_probe_preconditions (env : FfEnv) (fn : String) :
    (env.ffprobeOnPath = false →
      ffprobe env fn =
        ⟨[], .error (.exc "you need to have ffprobe installed, please read README.md.")⟩) ∧
    (env.ffprobeOnPath = true → env.isFile fn = false →
      ffprobe env fn = ⟨[], .error (.exc (fn ++ " is not a valid file"))⟩) := by
  constructor
  · intro h1
    simp [ffprobe, h1]
  · intro h1 h2
    simp [ffprobe, h1, h2]

/-- C5: `file_open` picks its backend by substring match anywhere in the
filename — `"bz2"` anywhere wins, else `"gz"` anywhere (even in
`"gzX.txt"`), else a plain open; compressed opens get a text-mode
handle. -/
theorem C5_file_open_backend (filename mode : String) :
    (strContains filename "bz2" = true → file_open filename mode = (.bz2, mode ++ "t")) ∧
    (strContains filename "bz2" = false → strContains filename "gz" = true →
      file_open filename mode = (.gzip, mode ++ "t")) ∧
    (strContains filename "bz2" = false → strContains filename "gz" = false →
      file_open filename mode = (.plain, mode)) ∧
    file_open "gzX.txt" "r" = (.gzip, "rt") := by
  refine ⟨fun h => ?_, fun h1 h2 => ?_, fun h1 h2 => ?_, rfl⟩
  · simp [file_open, h]
  · simp [file_open, h1, h2]
  · simp [file_open, h1, h2]

/-- C8: with a false check, `assert_msg` logs the message as an error and
terminates the process via `sys.exit(0)` — exit status zero, which is the
success status, not a non-success one. -/
theorem C8_assert_msg_exits_zero (msg : String) :
    assert_msg false msg = ⟨[msg], some 0⟩ := rfl

/-- C9: the tool-availability check runs before the file-existence check —
with the tool missing, the probe raises the tool-missing message even on a
nonexistent file, spawning nothing. -/
theorem C9_tool_check_first (env : FfEnv) (fn : String)
    (h1 : env.ffprobeOnPath = false) (h2 : env.isFile fn = false) :
    ffprobe env fn =
      ⟨[], .error (.exc "you need to have ffprobe installed, please read README.md.")⟩ := by
  simp [ffprobe, h1]

theorem C9_witness :
    ffprobe ⟨false, fun _ => false, fun _ => .exits 1 ""⟩ "missing.mp4" =
      ⟨[], .error (.exc "you need to have ffprobe installed, please read README.md.")⟩ :=
  C9_tool_check_first ⟨false, fun _ => false, fun _ => .exits 1 ""⟩ "missing.mp4" rfl rfl

/-- C6 counterexample: the integer-keyed dict `\x7b1: "a"\x7d` is
JSON-serializable, but the store/load round trip returns `\x7b"1": "a"\x7d`,
which Python `==` distinguishes from the original. -/
theorem C6_counterexample :
    ∃ s u, json_store (.obj (.cons (.int 1) (.str "a") .nil)) = some s ∧
      json_load s = some u ∧
      pyEq u (.obj (.cons (.int 1) (.str "a") .nil)) = false := by
  have hnat : natDigits 1 = ['1'] := by
    rw [natDigits_small 1 (by decide)]
    decide
  have hkey : dumpVal (.obj (.cons (.int 1) (.str "a") .nil)) 0 =
      dumpVal (.obj (.cons (.str "1") (.str "a") .nil)) 0 := by
    simp [dumpVal, dumpEntries, dumpKeyChars, keyStr, intRepr, hnat]
  refine ⟨String.mk (dumpVal (.obj (.cons (.str "1") (.str "a") .nil)) 0),
    .obj (.cons (.str "1") (.str "a") .nil), ?_, ?_, ?_⟩
  · show jsonStoreContent _ = _
    rw [jsonStoreContent, show canonSort (.obj (.cons (.int 1) (.str "a") .nil)) =
      some (.obj (.cons (.int 1) (.str "a") .nil)) from rfl, Option.map_some', hkey]
  · exact jsonLoadContent_dump _ (by decide)
  · decide

/-- C6 (amended): on every value whose dicts all have string keys and no
duplicate keys, `json_load` after `json_store` returns a value deeply
equal (Python `==`) to the original. -/
theorem C6_round_trip (v : PVal) (hg : goodStr v = true) :
    ∃ s u, json_store v = some s ∧ json_load s = some u ∧ pyEq u v = true :=
  json_store_load_roundtrip v hg

theorem C6_witness :
    ∃ s u, json_store (.obj (.cons (.str "a") (.int 1) .nil)) = some s ∧
      json_load s = some u ∧ pyEq u (.obj (.cons (.str "a") (.int 1) .nil)) = true :=
  C6_round_trip (.obj (.cons (.str "a") (.int 1) .nil)) (by decide)

/-- C1: whenever the probe succeeds on a tool output whose first video
stream carries a frame-rate string of the rational form `num/den` (the
fragment `evalRat` accepts, with a nonzero denominator evaluating to `q`),
the result's `avg_frame_rate` entry is the integer `round(q)`, at distance
at most one half from the true quotient. -/
theorem C1_frame_rate_rounded (env : FfEnv) (fn out : String) (res st : PObj)
    (s : String) (q : ℚ) (br dur : PVal)
    (h1 : env.ffprobeOnPath = true) (h2 : env.isFile fn = true)
    (h3 : env.proc (ffprobeCmd fn) = .exits 0 out)
    (h4 : jsonLoadContent (pyStrip out) = some (.obj res))
    (h5 : lookupPy (.str "streams") res = some (.arr (.cons (.obj st) .nil)))
    (hs : lookupPy (.str "avg_frame_rate") st = some (.str s))
    (hev : evalRat s = some q)
    (hbr : fmtGet res "bit_rate" (.int (-1)) = some br)
    (hdur : fmtGet res "duration" (.int 0) = some dur) :
    ∃ nd, (ffprobe env fn).outcome = .ok nd ∧
      lookupAssoc nd "avg_frame_rate" = some (.int (pyRound q)) ∧
      |(pyRound q : ℚ) - q| ≤ 1 / 2 := by
  have hconv : convRate (.str s) = some (.int (pyRound q)) := by
    simp [convRate, hev]
  have havg : ∀ v, lookupPy (.str "avg_frame_rate") st = some v →
      ∃ r, convRate v = some r := by
    intro v hv
    rw [hs] at hv
    injection hv with e
    subst e
    exact ⟨_, hconv⟩
  obtain ⟨nd, hnd, hfields⟩ :=
    ffprobe_fields env fn out res st br dur h1 h2 h3 h4 h5 havg hbr hdur
  refine ⟨nd, by rw [hnd], ?_, pyRound_nearest q⟩
  refine (hfields "avg_frame_rate" (by decide)).2 (.str s) (.int (pyRound q)) hs ?_
  rw [updConv, if_pos rfl, hconv]

theorem C1_witness :
    (∃ nd, (ffprobe fixEnv "a.mp4").outcome = .ok nd ∧
      lookupAssoc nd "avg_frame_rate" = some (.int (pyRound ((30000 : ℚ) / 1001))) ∧
      |(pyRound ((30000 : ℚ) / 1001) : ℚ) - (30000 : ℚ) / 1001| ≤ 1 / 2) ∧
    pyRound ((30000 : ℚ) / 1001) = 30 := by
  constructor
  · exact C1_frame_rate_rounded fixEnv "a.mp4" fixOut fixRes fixSt "30000/1001"
      ((30000 : ℚ) / 1001) (.int (-1)) (.int 0) rfl rfl rfl fix_load rfl rfl rfl rfl rfl
  · unfold pyRound
    norm_num

/-- C7 (amended): on a successful single-stream probe, each of the seven
recognized fields ends at the stream's value when the stream carries the
field — verbatim for six of them, and through the frame-rate conversion
(`updConv`) for `avg_frame_rate` — and at the sentinel `"unknown"` when it
does not. -/
theorem C7_stream_fields (env : FfEnv) (fn out : String) (res st : PObj) (br dur : PVal)
    (h1 : env.ffprobeOnPath = true) (h2 : env.isFile fn = true)
    (h3 : env.proc (ffprobeCmd fn) = .exits 0 out)
    (h4 : jsonLoadContent (pyStrip out) = some (.obj res))
    (h5 : lookupPy (.str "streams") res = some (.arr (.cons (.obj st) .nil)))
    (havg : ∀ v, lookupPy (.str "avg_frame_rate") st = some v → ∃ r, convRate v = some r)
    (hbr : fmtGet res "bit_rate" (.int (-1)) = some br)
    (hdur : fmtGet res "duration" (.int 0) = some dur) :
    ∃ nd, (ffprobe env fn).outcome = .ok nd ∧
      ∀ m ∈ fieldNames,
        (lookupPy (.str m) st = none → lookupAssoc nd m = some (.str "unknown")) ∧
        (∀ v r, lookupPy (.str m) st = some v → updConv m v = some r →
          lookupAssoc nd m = some r) := by
  obtain ⟨nd, hnd, hf⟩ :=
    ffprobe_fields env fn out res st br dur h1 h2 h3 h4 h5 havg hbr hdur
  exact ⟨nd, by rw [hnd], hf⟩

theorem C7_witness :
    ∃ nd, (ffprobe fixEnv "a.mp4").outcome = .ok nd ∧
      ∀ m ∈ fieldNames,
        (lookupPy (.str m) fixSt = none → lookupAssoc nd m = some (.str "unknown")) ∧
        (∀ v r, lookupPy (.str m) fixSt = some v → updConv m v = some r →
          lookupAssoc nd m = some r) := by
  refine C7_stream_fields fixEnv "a.mp4" fixOut fixRes fixSt (.int (-1)) (.int 0)
    rfl rfl rfl fix_load rfl ?_ rfl rfl
  intro v hv
  replace hv : some (PVal.str "30000/1001") = some v := hv
  injection hv with e
  subst e
  refine ⟨.int (pyRound ((30000 : ℚ) / 1001)), ?_⟩
  simp [convRate, show evalRat "30000/1001" = some ((30000 : ℚ) / 1001) from rfl]

/-- C7 counterexample: the fixture stream carries the raw string
`"30000/1001"`, but the result's `avg_frame_rate` entry is an integer, not
that verbatim value. -/
theorem C7_counterexample :
    ∃ nd, (ffprobe fixEnv "a.mp4").outcome = .ok nd ∧
      lookupPy (.str "avg_frame_rate") fixSt = some (.str "30000/1001") ∧
      lookupAssoc nd "avg_frame_rate" = some (.int 30) ∧
      PVal.int 30 ≠ PVal.str "30000/1001" := by
  have h30 : convRate (.str "30000/1001") = some (.int 30) := by
    have he : evalRat "30000/1001" = some ((30000 : ℚ) / 1001) := rfl
    have hr : pyRound ((30000 : ℚ) / 1001) = 30 := by
      unfold pyRound
      norm_num
    simp [convRate, he, hr]
  obtain ⟨nd, hnd, hf⟩ := ffprobe_fields fixEnv "a.mp4" fixOut fixRes fixSt
    (.int (-1)) (.int 0) rfl rfl rfl fix_load rfl (by
      intro v hv
      replace hv : some (PVal.str "30000/1001") = some v := hv
      injection hv with e
      subst e
      exact ⟨.int 30, h30⟩) rfl rfl
  refine ⟨nd, by rw [hnd], rfl, ?_, by decide⟩
  refine (hf "avg_frame_rate" (by decide)).2 (.str "30000/1001") (.int 30) rfl ?_
  rw [updConv, if_pos rfl, h30]

/-- C10: every mapping a successful probe returns has exactly the eleven
keys, in insertion order; `codec` duplicates `codec_name`, `video_profile`
duplicates `profile`, and `bitrate`/`duration` default to `-1`/`0` when
the format section is absent or lacks them. -/
theorem C10_result_shape (env : FfEnv) (fn : String) (nd : List (String × PVal))
    (h : (ffprobe env fn).outcome = .ok nd) :
    keysAssoc nd = ["pix_fmt", "bits_per_raw_sample", "width", "height", "avg_frame_rate",
      "codec_name", "profile", "bitrate", "codec", "duration", "video_profile"] ∧
    lookupAssoc nd "codec" = lookupAssoc nd "codec_name" ∧
    lookupAssoc nd "video_profile" = lookupAssoc nd "profile" ∧
    ∃ out res, env.proc (ffprobeCmd fn) = .exits 0 out ∧
      jsonLoadContent (pyStrip out) = some (.obj res) ∧
      (lookupPy (.str "format") res = none →
        lookupAssoc nd "bitrate" = some (.int (-1)) ∧
        lookupAssoc nd "duration" = some (.int 0)) ∧
      (∀ f, lookupPy (.str "format") res = some (.obj f) →
        (lookupPy (.str "bit_rate") f = none →
          lookupAssoc nd "bitrate" = some (.int (-1))) ∧
        (lookupPy (.str "duration") f = none →
          lookupAssoc nd "duration" = some (.int 0))) := by
  obtain ⟨out, resv, hproc, hload, hext⟩ := ffprobe_ok_inv env fn nd h
  obtain ⟨res, streams, L, br, codecv, dur, profv, hres, hstr, hps, hbr, hcv, hdur, hpv, hnd⟩ :=
    extractNeeded_inv resv nd hext
  subst hres
  have hkeysL : keysAssoc L = fieldNames := by
    have hk := keysAssoc_procStreams streams needed0 L hps (by
      intro n hn
      have e : keysAssoc needed0 = fieldNames := rfl
      rw [e]
      exact hn)
    rw [hk]
    rfl
  have hk1 : keysAssoc (setAssoc L "bitrate" br) = fieldNames ++ ["bitrate"] := by
    rw [keysAssoc_setAssoc_not_mem L "bitrate" br (by rw [hkeysL]; decide), hkeysL]
  have hk2 : keysAssoc (setAssoc (setAssoc L "bitrate" br) "codec" codecv) =
      fieldNames ++ ["bitrate", "codec"] := by
    rw [keysAssoc_setAssoc_not_mem _ "codec" codecv (by rw [hk1]; decide), hk1]
    rfl
  have hk3 : keysAssoc (setAssoc (setAssoc (setAssoc L "bitrate" br) "codec" codecv)
      "duration" dur) = fieldNames ++ ["bitrate", "codec", "duration"] := by
    rw [keysAssoc_setAssoc_not_mem _ "duration" dur (by rw [hk2]; decide), hk2]
    rfl
  have hk4 : keysAssoc nd =
      fieldNames ++ ["bitrate", "codec", "duration", "video_profile"] := by
    rw [hnd, keysAssoc_setAssoc_not_mem _ "video_profile" profv (by rw [hk3]; decide), hk3]
    rfl
  have hcodec : lookupAssoc nd "codec" = some codecv := by
    rw [hnd, lookupAssoc_setAssoc_ne _ _ _ _ (by decide),
      lookupAssoc_setAssoc_ne _ _ _ _ (by decide), lookupAssoc_setAssoc_self]
  have hcodecname : lookupAssoc nd "codec_name" = some codecv := by
    rw [hnd, lookupAssoc_setAssoc_ne _ _ _ _ (by decide),
      lookupAssoc_setAssoc_ne _ _ _ _ (by decide),
      lookupAssoc_setAssoc_ne _ _ _ _ (by decide)]
    exact hcv
  have hvp : lookupAssoc nd "video_profile" = some profv := by
    rw [hnd, lookupAssoc_setAssoc_self]
  have hprof : lookupAssoc nd "profile" = some profv := by
    rw [hnd, lookupAssoc_setAssoc_ne _ _ _ _ (by decide)]
    exact hpv
  have hbitrate : lookupAssoc nd "bitrate" = some br := by
    rw [hnd, lookupAssoc_setAssoc_ne _ _ _ _ (by decide),
      lookupAssoc_setAssoc_ne _ _ _ _ (by decide),
      lookupAssoc_setAssoc_ne _ _ _ _ (by decide), lookupAssoc_setAssoc_self]
  have hduration : lookupAssoc nd "duration" = some dur := by
    rw [hnd, lookupAssoc_setAssoc_ne _ _ _ _ (by decide), lookupAssoc_setAssoc_self]
  refine ⟨by rw [hk4]; rfl, hcodec.trans hcodecname.symm, hvp.trans hprof.symm,
    out, res, hproc, hload, ?_, ?_⟩
  · intro hfmt
    simp only [fmtGet, hfmt] at hbr hdur
    simp only [Option.some.injEq] at hbr hdur
    rw [hbitrate, ← hbr, hduration, ← hdur]
    exact ⟨rfl, rfl⟩
  · intro f hf
    simp only [fmtGet, hf] at hbr hdur
    constructor
    · intro hbf
      rw [hbf] at hbr
      simp only [Option.getD_none, Option.some.injEq] at hbr
      rw [hbitrate, ← hbr]
    · intro hdf
      rw [hdf] at hdur
      simp only [Option.getD_none, Option.some.injEq] at hdur
      rw [hduration, ← hdur]

theorem C10_witness :
    ∃ nd, (ffprobe fixEnv "a.mp4").outcome = .ok nd ∧
      keysAssoc nd = ["pix_fmt", "bits_per_raw_sample", "width", "height", "avg_frame_rate",
        "codec_name", "profile", "bitrate", "codec", "duration", "video_profile"] ∧
      lookupAssoc nd "codec" = lookupAssoc nd "codec_name" ∧
      lookupAssoc nd "video_profile" = lookupAssoc nd "profile" ∧
      lookupAssoc nd "bitrate" = some (.int (-1)) ∧
      lookupAssoc nd "duration" = some (.int 0) := by
  obtain ⟨nd, hnd, _⟩ := ffprobe_fields fixEnv "a.mp4" fixOut fixRes fixSt
    (.int (-1)) (.int 0) rfl rfl rfl fix_load rfl (by
      intro v hv
      replace hv : some (PVal.str "30000/1001") = some v := hv
      injection hv with e
      subst e
      refine ⟨.int (pyRound ((30000 : ℚ) / 1001)), ?_⟩
      simp [convRate, show evalRat "30000/1001" = some ((30000 : ℚ) / 1001) from rfl]) rfl rfl
  have ho : (ffprobe fixEnv "a.mp4").outcome = .ok nd := by rw [hnd]
  obtain ⟨hkeys, hcc, hvpp, out2, res2, hproc2, hload2, hnone, _⟩ :=
    C10_result_shape fixEnv "a.mp4" nd ho
  have eo : ProcBehavior.exits 0 out2 = ProcBehavior.exits 0 fixOut :=
    hproc2.symm.trans rfl
  injection eo with e1 e2
  subst e2
  have er : some (PVal.obj res2) = some (PVal.obj fixRes) := hload2.symm.trans fix_load
  injection er with e3
  injection e3 with e4
  subst e4
  obtain ⟨hb, hd⟩ := hnone rfl
  exact ⟨nd, ho, hkeys, hcc, hvpp, hb, hd⟩
